import Mathlib

/-!
# Huffman file compressor: model of `Filecompressor.cpp` and its properties

The definitions of the first part follow `src/Filecompressor.cpp` function by
function (`Node`, `Compare`, `generateCodes`, `buildHuffmanTree`,
`getOriginalBitSize`, `getCompressedBitSize`, the first lines of `main`).  The second
part introduces the vocabulary of the properties, the third part proves them.

Modelling conventions.

* A value of type `Node` is a `Node*` of the program: `Node.null` is `nullptr`,
  `Node.mk ch freq left right` is a pointer to a heap node with those four fields.
  The program never frees or shares nodes, so a pointer is identified with the tree
  it points to.
* `std::string` is `String`; a `char` is a `Char`.  Where it matters that a `char`
  has 8 bits, the characters of the text are assumed to have a value below 256.
* `int` is a 32-bit two's complement integer: an `int` value is an `Int`, and every
  `int` result the program computes (`freq[ch]++`, `left->freq + right->freq`, the
  narrowing of `text.length() * 8`, `bits += ...`) is passed through `wrapInt`,
  which reduces it to the range from -2^31 to 2^31 - 1.  (For the two signed
  additions an overflow is undefined behaviour in C++; the model takes the
  wrap-around that the compiled program performs.)
* `std::unordered_map<char, V>` is an association list with pairwise different
  keys (`Table V`).  `operator[]` on a missing key inserts the value-initialised
  default; the model appends the new entry, so the list order is the order of
  first insertion.  The iteration order of the real container is unspecified; it
  only influences the order in which the leaves are pushed on the priority queue,
  and that is covered by the tie-break policy below.
* `std::priority_queue<Node*, vector<Node*>, Compare>` is the list of the queued
  nodes together with a tie-break policy `sel`: `sel pq` is the position of the
  node that `top()` returns and `pop()` removes.  The standard library promises
  that no queued node beats `top()` under `Compare` (`ValidTieBreak`); which of
  several nodes of minimal frequency is returned depends on the heap layout and
  is left open, so the theorems hold for every valid policy.  The queued trees of
  one run have pairwise disjoint leaves and the queue changes with every
  operation, so every sequence of choices of minimal nodes is the run of some
  policy.
* `top()` on an empty queue is undefined behaviour; the model reports it as
  `Fault.topOfEmptyQueue`.
* The `while` loop is modelled with a bound on the number of iterations;
  `buildHuffmanTree` passes the initial length of the queue, and the theorems show
  that the bound is never reached.
-/

namespace Huffman

/-! ## Data model -/

/-- The value an `int` holds when the mathematical result is `z`: the representative
of `z` modulo 2^32 between -2^31 and 2^31 - 1. -/
def wrapInt (z : Int) : Int := (z + 2147483648) % 4294967296 - 2147483648

/-- Node structure for the Huffman tree (`struct Node`), seen through a `Node*`. -/
inductive Node where
  | null : Node
  | mk (ch : Char) (freq : Int) (left right : Node) : Node
  deriving DecidableEq

namespace Node

/-- The test `!root` on a `Node*`. -/
def isNull : Node → Bool
  | null => true
  | mk _ _ _ _ => false

/-- Field access `n->freq`. -/
def freq : Node → Int
  | null => 0
  | mk _ f _ _ => f

end Node

/-- Comparator for the min-heap: `l->freq > r->freq`. -/
def Compare (l r : Node) : Bool := decide (l.freq > r.freq)

/-- An `unordered_map<char, V>` as an association list. -/
abbrev Table (V : Type) := List (Char × V)

namespace Table

/-- The access `m[k]` used as an lvalue and then updated by `f`:
a missing key is first inserted with the default value `dflt`. -/
def modify {V : Type} (m : Table V) (k : Char) (dflt : V) (f : V → V) : Table V :=
  match m with
  | [] => [(k, f dflt)]
  | (k', v) :: rest =>
    if k' = k then (k', f v) :: rest else (k', v) :: modify rest k dflt f

/-- The value read by `m[k]`: the stored value, or the default for a missing key. -/
def read {V : Type} (m : Table V) (k : Char) (dflt : V) : V :=
  match m with
  | [] => dflt
  | (k', v) :: rest => if k' = k then v else read rest k dflt

/-- The keys of the map, in iteration order. -/
def keys {V : Type} (m : Table V) : List Char := m.map Prod.fst

end Table

/-- The map `unordered_map<char, int> freq`. -/
abbrev FreqTable := Table Int

/-- The map `unordered_map<char, string> huffmanCode`. -/
abbrev CodeTable := Table String

/-! ## Code generation -/

/-- Recursively generate Huffman codes and fill the map (`generateCodes`). -/
def generateCodes : Node → String → CodeTable → CodeTable
  | Node.null, _, huffmanCode => huffmanCode
  | Node.mk ch _ left right, code, huffmanCode =>
    let t0 := if left.isNull && right.isNull then huffmanCode.modify ch "" (fun _ => code)
              else huffmanCode
    let t1 := generateCodes left (code ++ "0") t0
    generateCodes right (code ++ "1") t1

/-! ## The priority queue -/

/-- A tie-break policy: the position, in the list of queued nodes, of the node
that `top()` returns. -/
abbrev TieBreak := List Node → Nat

/-- The contract of `std::priority_queue`: on a non-empty queue `top()` is a queued
node that no queued node beats, that is, `Compare top x` is false for every `x`. -/
def ValidTieBreak (sel : TieBreak) : Prop :=
  ∀ pq : List Node, pq ≠ [] →
    sel pq < pq.length ∧ ∀ x ∈ pq, Compare (pq.getD (sel pq) Node.null) x = false

/-- Position of the first node of minimal frequency. -/
def firstMin : TieBreak
  | [] => 0
  | x :: rest =>
    if rest.all (fun y => !Compare x y) then 0 else firstMin rest + 1

/-- `pq.push(n)`. -/
def pqPush (pq : List Node) (n : Node) : List Node := pq ++ [n]

/-- `pq.top()`: undefined on an empty queue (`none`; also for a position outside the
queue, which a valid policy never names). -/
def pqTop (sel : TieBreak) (pq : List Node) : Option Node := pq.get? (sel pq)

/-- `pq.pop()`. -/
def pqPop (sel : TieBreak) (pq : List Node) : List Node := pq.eraseIdx (sel pq)

/-! ## Tree construction -/

/-- What stops a run of the model short of a result. -/
inductive Fault where
  | topOfEmptyQueue : Fault
  | outOfFuel : Fault
  deriving DecidableEq

/-- The loop `while (pq.size() > 1) { ... }` of `buildHuffmanTree`; every iteration
shortens the queue by one node, `fuel` bounds the number of iterations. -/
def mergeLoop (sel : TieBreak) : Nat → List Node → Except Fault (List Node)
  | fuel, pq =>
    if pq.length > 1 then
      match fuel with
      | 0 => Except.error Fault.outOfFuel
      | fuel + 1 =>
        match pqTop sel pq with
        | none => Except.error Fault.topOfEmptyQueue
        | some left =>
          let pq1 := pqPop sel pq
          match pqTop sel pq1 with
          | none => Except.error Fault.topOfEmptyQueue
          | some right =>
            let pq2 := pqPop sel pq1
            let parent := Node.mk (Char.ofNat 0) (wrapInt (left.freq + right.freq)) left right
            mergeLoop sel fuel (pqPush pq2 parent)
    else Except.ok pq

/-- The loop `for (char ch : text) freq[ch]++`. -/
def countFreq (text : String) (freq : FreqTable) : FreqTable :=
  text.toList.foldl (fun m ch => m.modify ch 0 (fun v => wrapInt (v + 1))) freq

/-- The loop `for (auto& p : freq) pq.push(new Node(p.first, p.second))`. -/
def pushLeaves (freq : FreqTable) (pq : List Node) : List Node :=
  freq.foldl (fun q p => pqPush q (Node.mk p.1 p.2 Node.null Node.null)) pq

/-- What `buildHuffmanTree` leaves behind: the returned root and the two maps. -/
structure Built where
  root : Node
  huffmanCode : CodeTable
  freq : FreqTable
  deriving DecidableEq

/-- Build the Huffman tree and generate the codes (`buildHuffmanTree`). -/
def buildHuffmanTree (sel : TieBreak) (text : String) (huffmanCode : CodeTable)
    (freq : FreqTable) : Except Fault Built :=
  let freq1 := countFreq text freq
  let pq := pushLeaves freq1 []
  match mergeLoop sel pq.length pq with
  | Except.error e => Except.error e
  | Except.ok pq1 =>
    match pqTop sel pq1 with
    | none => Except.error Fault.topOfEmptyQueue
    | some root => Except.ok ⟨root, generateCodes root "" huffmanCode, freq1⟩

/-- The start of `main`: both maps are empty when `buildHuffmanTree` is called. -/
def mainBuild (sel : TieBreak) (text : String) : Except Fault Built :=
  buildHuffmanTree sel text [] []

/-! ## Statistics -/

/-- Original bit size, 8 bits per char (`getOriginalBitSize`): the product is computed
on `size_t` and narrowed to the `int` that is returned (the reduction of the product
modulo 2^64 is absorbed by the narrowing to 32 bits). -/
def getOriginalBitSize (text : String) : Int := wrapInt ((text.length * 8 : Nat) : Int)

/-- Compressed bit size (`getCompressedBitSize`): every `bits += ...` stores the sum
back into the `int` accumulator.  The access `huffmanCode[ch]` reads the stored code,
or the empty string for a character that is not a key (the entry it would insert for
such a character does not change the returned sum). -/
def getCompressedBitSize (text : String) (huffmanCode : CodeTable) : Int :=
  text.toList.foldl
    (fun bits ch => wrapInt (bits + ((huffmanCode.read ch "").length : Int))) 0

/-! ## Vocabulary of the properties -/

/-- The largest value of an `int`, 2^31 - 1. -/
def intMax : Nat := 2147483647

/-- The sum of the values of a frequency table. -/
def FreqTable.total (m : FreqTable) : Int := (m.map Prod.snd).sum

/-- The counting loop with unbounded numbers: the number of occurrences of every
character, in the order of first occurrence. -/
def countNat (l : List Char) (m : Table Nat) : Table Nat :=
  l.foldl (fun m ch => m.modify ch 0 (fun v => v + 1)) m

/-- The total code length of a text under a code table: the sum over the characters
of the text of the length of their code. -/
def textCodeSum (text : String) (huffmanCode : CodeTable) : Nat :=
  (text.toList.map (fun ch => (huffmanCode.read ch "").length)).sum

/-- The leaves of a tree from left to right, each with its symbol, its frequency and
the sequence of edges from the root to it, a left edge written `0` and a right edge
written `1`.  A leaf is a node without children. -/
def leafRows : Node → List (Char × Int × String)
  | Node.null => []
  | Node.mk ch f left right =>
    if left.isNull && right.isNull then [(ch, f, "")]
    else (leafRows left).map (fun r => (r.1, r.2.1, "0" ++ r.2.2)) ++
         (leafRows right).map (fun r => (r.1, r.2.1, "1" ++ r.2.2))

/-- The root-to-leaf path of every leaf symbol. -/
def leafPaths (t : Node) : CodeTable := (leafRows t).map (fun r => (r.1, r.2.2))

/-- The leaves of a tree: symbol and frequency. -/
def leaves (t : Node) : FreqTable := (leafRows t).map (fun r => (r.1, r.2.1))

/-- The depth of every leaf symbol: the number of edges between the root and the leaf. -/
def leafDepths : Node → List (Char × Nat)
  | Node.null => []
  | Node.mk ch _ left right =>
    if left.isNull && right.isNull then [(ch, 0)]
    else (leafDepths left).map (fun r => (r.1, r.2 + 1)) ++
         (leafDepths right).map (fun r => (r.1, r.2 + 1))

/-- Every node of the tree has either no child or two children. -/
def Full : Node → Prop
  | Node.null => True
  | Node.mk _ _ left right =>
    (left.isNull = right.isNull) ∧ Full left ∧ Full right

/-- Two words of which neither is a beginning of the other. -/
def Incomparable {α : Type} (u v : List α) : Prop := ¬ u <+: v ∧ ¬ v <+: u

/-- The node built by one iteration of the loop from the two extracted nodes. -/
def parentOf (left right : Node) : Node :=
  Node.mk (Char.ofNat 0) (wrapInt (left.freq + right.freq)) left right

/-- The runs of the merge loop under any tie-break: `Merges q t` says that the loop
started with the queue content `q` can end with the single node `t`.  One step
extracts a node of minimal frequency, then a node of minimal frequency among the
others, and queues their parent. -/
inductive Merges : List Node → Node → Prop
  | done (t : Node) : Merges [t] t
  | step (q q2 : List Node) (l r t : Node) (hperm : List.Perm q (l :: r :: q2))
      (hl : ∀ x ∈ q, l.freq ≤ x.freq) (hr : ∀ x ∈ q2, r.freq ≤ x.freq)
      (hrest : Merges (q2 ++ [parentOf l r]) t) : Merges q t

/-- The shape of a Huffman tree: every node is a leaf without children, or an
internal node with two children whose frequency is the sum of the frequencies of
its children and whose left child is not more frequent than its right child. -/
def Shape : Node → Prop
  | Node.null => False
  | Node.mk _ f left right =>
    (left = Node.null ∧ right = Node.null) ∨
    (left ≠ Node.null ∧ right ≠ Node.null ∧ f = left.freq + right.freq ∧
      left.freq ≤ right.freq ∧ Shape left ∧ Shape right)

/-- The leaf made by `new Node(p.first, p.second)`. -/
def leafNode (p : Char × Int) : Node := Node.mk p.1 p.2 Node.null Node.null

/-- The leaves of all the trees of a queue. -/
def forestLeaves : List Node → FreqTable
  | [] => []
  | t :: q => leaves t ++ forestLeaves q

/-- The sum of the frequencies of the leaves of a tree (of leaves without negative
frequency). -/
def leafSum (t : Node) : Nat := ((leafRows t).map (fun r => r.2.1.toNat)).sum

/-- The weighted path length of a tree: the sum over its leaves of the frequency
times the length of the root-to-leaf path. -/
def wpl (t : Node) : Nat := ((leafRows t).map (fun r => r.2.1.toNat * r.2.2.length)).sum

/-- A well-shaped tree whose leaves have no negative frequency. -/
def Sound (t : Node) : Prop := Shape t ∧ ∀ r ∈ leafRows t, 0 ≤ r.2.1

/-- The cost of a weighted code: the sum of weight times word length. -/
def cost (P : List (Nat × List Bool)) : Nat := (P.map (fun e => e.1 * e.2.length)).sum

/-- No word of the list is a beginning of another word of the list. -/
def PrefixFreeWords (ws : List (List Bool)) : Prop := ws.Pairwise Incomparable

/-- The sum over a frequency table of frequency times `g`. -/
def weighted (g : Char → Nat) (m : FreqTable) : Int :=
  (m.map (fun p => p.2 * (g p.1 : Int))).sum

/-- The sum over a table of occurrence numbers of number times `g`. -/
def weightedNat (g : Char → Nat) (m : Table Nat) : Nat := (m.map (fun p => p.2 * g p.1)).sum

/-- The frequency table that holds the occurrence numbers of `m` as `int` values. -/
def asInts (m : Table Nat) : FreqTable := m.map (fun p => (p.1, wrapInt (p.2 : Int)))

/-- A string of the characters `0` and `1`. -/
def Binary (s : String) : Prop := ∀ c ∈ s.data, c = '0' ∨ c = '1'

/-- The string `u` is a beginning of the string `v`. -/
def IsBeginning (u v : String) : Prop := u.data <+: v.data

/-- The number of distinct characters of the text. -/
def distinctChars (text : String) : Nat := text.toList.dedup.length

/-- The bits of a binary string. -/
def bits (s : String) : List Bool := s.data.map (fun c => decide (c = '1'))

/-- The fixed-length code of a character: the eight low bits of its value. -/
def fixedCode (c : Char) : String :=
  String.mk ((List.range 8).map (fun i => if c.toNat.testBit i then '1' else '0'))

instance Shape.instDecidable : (t : Node) → Decidable (Shape t)
  | Node.null => isFalse (fun h => h)
  | Node.mk _ f left right =>
    have := Shape.instDecidable left
    have := Shape.instDecidable right
    inferInstanceAs (Decidable ((left = Node.null ∧ right = Node.null) ∨
      (left ≠ Node.null ∧ right ≠ Node.null ∧ f = left.freq + right.freq ∧
        left.freq ≤ right.freq ∧ Shape left ∧ Shape right)))

instance Full.instDecidable : (t : Node) → Decidable (Full t)
  | Node.null => isTrue trivial
  | Node.mk _ _ left right =>
    have := Full.instDecidable left
    have := Full.instDecidable right
    inferInstanceAs (Decidable ((left.isNull = right.isNull) ∧ Full left ∧ Full right))

instance (s : String) : Decidable (Binary s) := by
  unfold Binary
  infer_instance

instance (u v : String) : Decidable (IsBeginning u v) := by
  unfold IsBeginning
  infer_instance

/-- The text of `n` times the character `a`. -/
def oneSymbolText (n : Nat) : String := String.mk (List.replicate n 'a')

/-- The text of `n` times the character `a` followed by one `b`. -/
def twoSymbolText (n : Nat) : String := String.mk (List.replicate n 'a' ++ ['b'])

/-- The text of `n` times `a`, `n` times `b`, `n` times `c`, `n` times `d` and one `e`. -/
def fiveSymbolText (n : Nat) : String :=
  String.mk (List.replicate n 'a' ++ (List.replicate n 'b' ++
    (List.replicate n 'c' ++ (List.replicate n 'd' ++ ['e']))))

/-! ## Facts about tables -/

namespace Table

variable {V : Type}

theorem keys_modify (m : Table V) (k : Char) (d : V) (f : V → V) :
    keys (modify m k d f) = if k ∈ keys m then keys m else keys m ++ [k] := by
  induction m with
  | nil => simp [modify, keys]
  | cons p rest ih =>
    obtain ⟨k', v⟩ := p
    by_cases h : k' = k
    · simp [modify, keys, h]
    · have hk : ¬ k = k' := fun e => h e.symm
      simp only [keys] at ih
      by_cases hm : k ∈ List.map Prod.fst rest
      · simp [modify, keys, h, hk, hm, ih]
      · simp [modify, keys, h, hk, hm, ih]

theorem mem_keys_modify (m : Table V) (k : Char) (d : V) (f : V → V) (c : Char) :
    c ∈ keys (modify m k d f) ↔ c ∈ keys m ∨ c = k := by
  rw [keys_modify]
  split
  · constructor
    · exact Or.inl
    · rintro (h | rfl)
      · exact h
      · assumption
  · simp

theorem nodup_keys_modify (m : Table V) (k : Char) (d : V) (f : V → V)
    (h : (keys m).Nodup) : (keys (modify m k d f)).Nodup := by
  rw [keys_modify]
  split
  · exact h
  · rename_i hk
    exact List.Nodup.append h (List.nodup_singleton k) (by simpa using hk)

theorem read_modify_same (m : Table V) (k : Char) (d : V) (f : V → V) :
    read (modify m k d f) k d = f (read m k d) := by
  induction m with
  | nil => simp [modify, read]
  | cons p rest ih =>
    obtain ⟨k', v⟩ := p
    by_cases h : k' = k
    · simp [modify, read, h]
    · simp [modify, read, h, ih]

theorem read_modify_ne (m : Table V) (k : Char) (d : V) (f : V → V) (c : Char) (d' : V)
    (hc : c ≠ k) : read (modify m k d f) c d' = read m c d' := by
  induction m with
  | nil =>
    have : ¬ k = c := fun e => hc e.symm
    simp [modify, read, this]
  | cons p rest ih =>
    obtain ⟨k', v⟩ := p
    by_cases h : k' = k
    · subst h
      have : ¬ k' = c := fun e => hc e.symm
      simp [modify, read, this]
    · by_cases h2 : k' = c
      · subst h2
        simp [modify, read, h]
      · simp [modify, read, h, h2, ih]

theorem modify_of_not_mem (m : Table V) (k : Char) (d : V) (f : V → V)
    (h : k ∉ keys m) : modify m k d f = m ++ [(k, f d)] := by
  induction m with
  | nil => simp [modify]
  | cons p rest ih =>
    obtain ⟨k', v⟩ := p
    simp only [keys, List.map_cons, List.mem_cons, not_or] at h
    have h1 : ¬ k' = k := fun e => h.1 e.symm
    simp [modify, h1, ih h.2]

theorem read_of_mem (m : Table V) (h : (keys m).Nodup) (c : Char) (v d : V)
    (hm : (c, v) ∈ m) : read m c d = v := by
  induction m with
  | nil => simp at hm
  | cons p rest ih =>
    obtain ⟨k', v'⟩ := p
    simp only [keys, List.map_cons, List.nodup_cons] at h
    rcases List.mem_cons.1 hm with e | hr
    · cases e
      simp [read]
    · have hne : ¬ k' = c := by
        rintro rfl
        exact h.1 (List.mem_map.2 ⟨(k', v), hr, rfl⟩)
      simp [read, hne, ih h.2 hr]

theorem read_of_not_mem (m : Table V) (c : Char) (d : V) (h : c ∉ keys m) :
    read m c d = d := by
  induction m with
  | nil => simp [read]
  | cons p rest ih =>
    obtain ⟨k', v'⟩ := p
    simp only [keys, List.map_cons, List.mem_cons, not_or] at h
    have hne : ¬ k' = c := fun e => h.1 e.symm
    simp [read, hne, ih h.2]

theorem mem_of_mem_keys (m : Table V) (c : Char) (d : V) (h : c ∈ keys m) :
    (c, read m c d) ∈ m := by
  induction m with
  | nil => simp [keys] at h
  | cons p rest ih =>
    obtain ⟨k', v'⟩ := p
    by_cases hk : k' = c
    · subst hk
      simp [read]
    · simp only [keys, List.map_cons, List.mem_cons] at h
      rcases h with e | hr
      · exact absurd e.symm hk
      · simp [read, hk, ih hr]

end Table

/-! ## Machine integers -/

theorem wrapInt_add_wrap (a b : Int) : wrapInt (wrapInt a + b) = wrapInt (a + b) := by
  unfold wrapInt
  omega

theorem wrapInt_of_range (z : Int) (h0 : -2147483648 ≤ z) (h1 : z ≤ 2147483647) :
    wrapInt z = z := by
  unfold wrapInt
  omega

theorem wrapInt_natCast (n : Nat) (h : n ≤ intMax) : wrapInt (n : Int) = (n : Int) := by
  unfold intMax at h
  exact wrapInt_of_range _ (by omega) (by omega)

/-! ## The frequency table -/

theorem natTotal_modify (m : Table Nat) (k : Char) :
    ((m.modify k 0 (fun v => v + 1)).map Prod.snd).sum = (m.map Prod.snd).sum + 1 := by
  induction m with
  | nil => simp [Table.modify]
  | cons p rest ih =>
    obtain ⟨k', v⟩ := p
    by_cases h : k' = k
    · simp [Table.modify, h]
      omega
    · simp [Table.modify, h, ih]
      omega

/-- The counting loop with unbounded numbers, from any starting table. -/
theorem countNat_spec (l : List Char) (m : Table Nat) :
    (∀ c, c ∈ (countNat l m).keys ↔ c ∈ m.keys ∨ c ∈ l) ∧
    ((m.keys).Nodup → ((countNat l m).keys).Nodup) ∧
    (∀ c, (countNat l m).read c 0 = m.read c 0 + l.count c) ∧
    ((countNat l m).map Prod.snd).sum = (m.map Prod.snd).sum + l.length := by
  induction l generalizing m with
  | nil => simp [countNat]
  | cons a l ih =>
    have := ih (m.modify a 0 (fun v => v + 1))
    simp only [countNat, List.foldl_cons] at this ⊢
    obtain ⟨h1, h2, h3, h4⟩ := this
    refine ⟨?_, ?_, ?_, ?_⟩
    · intro c
      rw [h1, Table.mem_keys_modify]
      simp only [List.mem_cons]
      tauto
    · intro hn
      exact h2 (Table.nodup_keys_modify _ _ _ _ hn)
    · intro c
      rw [h3]
      by_cases hc : c = a
      · subst hc
        rw [Table.read_modify_same]
        simp
        omega
      · rw [Table.read_modify_ne _ _ _ _ _ _ hc]
        have : ¬ a = c := fun e => hc e.symm
        simp [List.count_cons, this]
    · rw [h4, natTotal_modify]
      simp
      omega

theorem modify_asInts (m : Table Nat) (k : Char) :
    (asInts m).modify k 0 (fun v => wrapInt (v + 1)) =
      asInts (m.modify k 0 (fun v => v + 1)) := by
  induction m with
  | nil => simp [asInts, Table.modify]
  | cons p rest ih =>
    obtain ⟨k', v⟩ := p
    simp only [asInts] at ih
    by_cases h : k' = k
    · simp only [asInts, List.map_cons, Table.modify, h, ↓reduceIte]
      rw [wrapInt_add_wrap]
      simp
    · simp only [asInts, List.map_cons, Table.modify, h, ↓reduceIte, ih]

theorem countFold_asInts (l : List Char) (m : Table Nat) :
    l.foldl (fun m ch => m.modify ch 0 (fun v => wrapInt (v + 1))) (asInts m) =
      asInts (countNat l m) := by
  induction l generalizing m with
  | nil => simp [countNat]
  | cons a l ih =>
    simp only [List.foldl_cons, countNat, modify_asInts]
    exact ih _

/-- The frequency table holds the occurrence numbers as `int` values. -/
theorem countFreq_eq_asInts (text : String) :
    countFreq text [] = asInts (countNat text.toList []) := by
  have := countFold_asInts text.toList []
  simpa [countFreq, asInts] using this

theorem keys_asInts (m : Table Nat) : (asInts m).keys = m.keys := by
  simp [asInts, Table.keys, Function.comp_def]

theorem read_asInts (m : Table Nat) (c : Char) :
    (asInts m).read c 0 = wrapInt ((m.read c 0 : Nat) : Int) := by
  induction m with
  | nil => simp [asInts, Table.read, wrapInt]
  | cons p rest ih =>
    obtain ⟨k', v⟩ := p
    simp only [asInts] at ih
    by_cases h : k' = c
    · simp [asInts, Table.read, h]
    · simp [asInts, Table.read, h, ih]

/-! ## Root-to-leaf paths -/

theorem isNull_iff (t : Node) : t.isNull = true ↔ t = Node.null := by
  cases t <;> simp [Node.isNull]

theorem leafDepths_eq (t : Node) :
    leafDepths t = (leafRows t).map (fun r => (r.1, r.2.2.length)) := by
  induction t with
  | null => simp [leafDepths, leafRows]
  | mk ch f l r ihl ihr =>
    by_cases h : (l.isNull && r.isNull) = true
    · simp [leafDepths, leafRows, h]
    · have e0 : ("0" : String).length = 1 := rfl
      have e1 : ("1" : String).length = 1 := rfl
      simp [leafDepths, leafRows, h, ihl, ihr, Function.comp_def, Nat.add_comm, e0, e1]

/-- The table writes of `generateCodes`, in the order in which they happen. -/
theorem generateCodes_eq_foldl (t : Node) (code : String) (tbl : CodeTable) :
    generateCodes t code tbl =
      ((leafPaths t).map (fun p => (p.1, code ++ p.2))).foldl
        (fun m p => m.modify p.1 "" (fun _ => p.2)) tbl := by
  induction t generalizing code tbl with
  | null => simp [generateCodes, leafPaths, leafRows]
  | mk ch f l r ihl ihr =>
    by_cases h : (l.isNull && r.isNull) = true
    · have hl : l = Node.null := (isNull_iff l).1 (by simp at h; exact h.1)
      have hr : r = Node.null := (isNull_iff r).1 (by simp at h; exact h.2)
      subst hl hr
      simp [generateCodes, leafPaths, leafRows, Node.isNull]
    · simp only [leafPaths] at ihl ihr
      simp [generateCodes, leafPaths, leafRows, h, ihl, ihr, Function.comp_def,
        String.append_assoc]

theorem foldl_modify_fresh (L : CodeTable) (m : CodeTable)
    (h : (m.keys ++ L.keys).Nodup) :
    L.foldl (fun m p => m.modify p.1 "" (fun _ => p.2)) m = m ++ L := by
  induction L generalizing m with
  | nil => simp
  | cons p L ih =>
    obtain ⟨k, v⟩ := p
    have hk : k ∉ m.keys := by
      intro hk
      have := (List.nodup_append.1 h).2.2
      exact this hk (by simp [Table.keys])
    simp only [List.foldl_cons]
    rw [Table.modify_of_not_mem _ _ _ _ hk, ih]
    · simp
    · have : Table.keys (m ++ [(k, v)]) ++ Table.keys L = m.keys ++ Table.keys ((k, v) :: L) := by
        simp [Table.keys]
      rw [this]
      exact h

/-- On a tree whose leaves carry pairwise different symbols, `generateCodes` started
with the empty code and the empty table produces the table of root-to-leaf paths. -/
theorem generateCodes_eq_leafPaths (t : Node) (h : ((leafPaths t).keys).Nodup) :
    generateCodes t "" [] = leafPaths t := by
  rw [generateCodes_eq_foldl]
  have e : (leafPaths t).map (fun p => (p.1, "" ++ p.2)) = leafPaths t := by
    simp
  rw [e, foldl_modify_fresh _ _ (by simpa [Table.keys] using h)]
  simp

theorem leafPaths_keys (t : Node) : (leafPaths t).keys = (leaves t).keys := by
  simp [leafPaths, leaves, Table.keys, Function.comp_def]

/-- The paths of the leaves consist of the characters `0` and `1`. -/
theorem leafRows_binary (t : Node) :
    ∀ r ∈ leafRows t, ∀ c ∈ r.2.2.data, c = '0' ∨ c = '1' := by
  induction t with
  | null => simp [leafRows]
  | mk ch f l r ihl ihr =>
    by_cases h : (l.isNull && r.isNull) = true
    · simp [leafRows, h]
    · intro x hx c hc
      simp only [leafRows, h, Bool.false_eq_true, ↓reduceIte, List.mem_append,
        List.mem_map] at hx
      rcases hx with ⟨y, hy, rfl⟩ | ⟨y, hy, rfl⟩
      · simp only [String.data_append, List.mem_append] at hc
        rcases hc with hc | hc
        · left; simpa using hc
        · exact ihl y hy c hc
      · simp only [String.data_append, List.mem_append] at hc
        rcases hc with hc | hc
        · right; simpa using hc
        · exact ihr y hy c hc

theorem incomparable_symm {α : Type} : Symmetric (Incomparable (α := α)) :=
  fun _ _ h => ⟨h.2, h.1⟩

/-- No path of a leaf is a beginning of the path of another leaf. -/
theorem leafRows_pairwise (t : Node) :
    (leafRows t).Pairwise (fun x y => Incomparable x.2.2.data y.2.2.data) := by
  induction t with
  | null => simp [leafRows]
  | mk ch f l r ihl ihr =>
    by_cases h : (l.isNull && r.isNull) = true
    · simp [leafRows, h]
    · simp only [leafRows, h, Bool.false_eq_true, ↓reduceIte]
      rw [List.pairwise_append]
      refine ⟨?_, ?_, ?_⟩
      · rw [List.pairwise_map]
        refine ihl.imp ?_
        intro a b hab
        simpa [Incomparable, String.data_append, List.prefix_append_right_inj] using hab
      · rw [List.pairwise_map]
        refine ihr.imp ?_
        intro a b hab
        simpa [Incomparable, String.data_append, List.prefix_append_right_inj] using hab
      · intro x hx y hy
        obtain ⟨x', _, rfl⟩ := List.mem_map.1 hx
        obtain ⟨y', _, rfl⟩ := List.mem_map.1 hy
        have e0 : ("0" : String).data = ['0'] := rfl
        have e1 : ("1" : String).data = ['1'] := rfl
        simp [Incomparable, String.data_append, e0, e1, List.cons_prefix_cons]

/-! ## The merge loop -/

theorem perm_cons_eraseIdx (l : List Node) (i : Nat) (x : Node) (h : l.get? i = some x) :
    List.Perm l (x :: l.eraseIdx i) := by
  induction l generalizing i with
  | nil => simp at h
  | cons a l ih =>
    cases i with
    | zero =>
      simp at h
      subst h
      simp
    | succ i =>
      simp at h
      have := ih i (by simpa using h)
      simp only [List.eraseIdx_cons_succ]
      exact (List.Perm.cons a this).trans (List.Perm.swap x a _)

theorem firstMin_valid : ValidTieBreak firstMin := by
  intro pq hne
  induction pq with
  | nil => exact absurd rfl hne
  | cons x rest ih =>
    by_cases h : rest.all (fun y => !Compare x y) = true
    · simp only [firstMin, h, ↓reduceIte, List.length_cons, List.getD_cons_zero]
      refine ⟨by omega, ?_⟩
      intro y hy
      rcases List.mem_cons.1 hy with rfl | hy
      · simp [Compare]
      · have := List.all_eq_true.1 h y hy
        simpa using this
    · have hrest : rest ≠ [] := by
        rintro rfl
        simp at h
      obtain ⟨h1, h2⟩ := ih hrest
      simp only [firstMin, h, Bool.false_eq_true, ↓reduceIte, List.length_cons,
        List.getD_cons_succ]
      refine ⟨by omega, ?_⟩
      intro y hy
      rcases List.mem_cons.1 hy with rfl | hy
      · simp only [List.all_eq_true, not_forall] at h
        obtain ⟨z, hz, hzc⟩ := h
        have hz2 := h2 z hz
        simp only [Compare, gt_iff_lt, decide_eq_false_iff_not, not_lt,
          Bool.not_eq_true', decide_eq_true_eq, Bool.not_eq_eq_eq_not,
          Bool.not_true] at hzc hz2 ⊢
        simp at hzc
        omega
      · exact h2 y hy

/-- What a valid tie-break gives for `top()` followed by `pop()`. -/
theorem top_pop_spec (sel : TieBreak) (hsel : ValidTieBreak sel) (pq : List Node)
    (hne : pq ≠ []) :
    ∃ x, pqTop sel pq = some x ∧ List.Perm pq (x :: pqPop sel pq) ∧
      ∀ y ∈ pq, x.freq ≤ y.freq := by
  obtain ⟨h1, h2⟩ := hsel pq hne
  have hget : pq.get? (sel pq) = some (pq.getD (sel pq) Node.null) := by
    rw [List.getD_eq_getElem?_getD, List.get?_eq_getElem?, List.getElem?_eq_getElem h1]
    simp
  refine ⟨pq.getD (sel pq) Node.null, hget, perm_cons_eraseIdx _ _ _ hget, ?_⟩
  intro y hy
  have := h2 y hy
  simpa [Compare] using this

/-- The merge loop ends with a single node, and it is a run of `Merges`. -/
theorem mergeLoop_merges (sel : TieBreak) (hsel : ValidTieBreak sel) :
    ∀ (fuel : Nat) (pq : List Node), pq ≠ [] → pq.length ≤ fuel + 1 →
      ∃ t, mergeLoop sel fuel pq = Except.ok [t] ∧ Merges pq t := by
  intro fuel
  induction fuel with
  | zero =>
    intro pq hne hlen
    match pq, hne, hlen with
    | [t], _, _ => exact ⟨t, by simp [mergeLoop], Merges.done t⟩
  | succ fuel ih =>
    intro pq hne hlen
    by_cases h1 : pq.length > 1
    · obtain ⟨l, hl1, hl2, hl3⟩ := top_pop_spec sel hsel pq hne
      have hlen1 : (pqPop sel pq).length + 1 = pq.length := by
        simpa using hl2.length_eq.symm
      have hne1 : pqPop sel pq ≠ [] := by
        intro e
        rw [e] at hlen1
        simp at hlen1
        omega
      obtain ⟨r, hr1, hr2, hr3⟩ := top_pop_spec sel hsel (pqPop sel pq) hne1
      have hlen2 : (pqPop sel (pqPop sel pq)).length + 1 = (pqPop sel pq).length := by
        simpa using hr2.length_eq.symm
      obtain ⟨t, ht1, ht2⟩ := ih (pqPush (pqPop sel (pqPop sel pq)) (parentOf l r))
        (by simp [pqPush]) (by simp [pqPush]; omega)
      refine ⟨t, ?_, ?_⟩
      · rw [mergeLoop]
        simp only [h1, ↓reduceIte, hl1, hr1]
        exact ht1
      · refine Merges.step pq (pqPop sel (pqPop sel pq)) l r t ?_ hl3 ?_ ht2
        · exact hl2.trans (List.Perm.cons l hr2)
        · intro x hx
          exact hr3 x (hr2.symm.subset (List.mem_cons_of_mem _ hx))
    · match pq, hne, h1 with
      | [t], _, _ => exact ⟨t, by simp [mergeLoop], Merges.done t⟩
      | _ :: _ :: _, _, h1 => simp at h1

/-! ## Shape of the tree -/

theorem shape_ne_null (t : Node) (h : Shape t) : t ≠ Node.null := by
  rintro rfl
  exact h

theorem isNull_false (l : Node) (hl : l ≠ Node.null) : l.isNull = false := by
  cases l with
  | null => exact absurd rfl hl
  | mk _ _ _ _ => rfl

theorem leafRows_mk (ch : Char) (f : Int) (l r : Node) (hl : l ≠ Node.null) :
    leafRows (Node.mk ch f l r) =
      (leafRows l).map (fun r => (r.1, r.2.1, "0" ++ r.2.2)) ++
      (leafRows r).map (fun r => (r.1, r.2.1, "1" ++ r.2.2)) := by
  simp [leafRows, isNull_false l hl]

theorem leaves_parentOf (l r : Node) (hl : l ≠ Node.null) :
    leaves (parentOf l r) = leaves l ++ leaves r := by
  simp [leaves, parentOf, leafRows_mk _ _ l r hl, Function.comp_def]

theorem leafSum_mk (ch : Char) (f : Int) (l r : Node) (hl : l ≠ Node.null) :
    leafSum (Node.mk ch f l r) = leafSum l + leafSum r := by
  simp [leafSum, leafRows_mk _ _ l r hl, Function.comp_def]

theorem sum_shift (L : List (Char × Int × String)) (s : String) :
    ((L.map (fun r => (r.1, r.2.1, s ++ r.2.2))).map
        (fun r => r.2.1.toNat * r.2.2.length)).sum =
      (L.map (fun r => r.2.1.toNat * r.2.2.length)).sum +
        s.length * (L.map (fun r => r.2.1.toNat)).sum := by
  induction L with
  | nil => simp
  | cons a L ih =>
    simp only [List.map_cons, List.sum_cons, ih, String.length_append]
    ring

theorem wpl_parentOf (l r : Node) (hl : l ≠ Node.null) :
    wpl (parentOf l r) = wpl l + wpl r + leafSum l + leafSum r := by
  have e0 : ("0" : String).length = 1 := rfl
  have e1 : ("1" : String).length = 1 := rfl
  simp only [wpl, parentOf, leafRows_mk _ _ l r hl, List.map_append, List.sum_append,
    sum_shift, leafSum, e0, e1]
  ring

theorem sound_leafNode (p : Char × Int) (h : 0 ≤ p.2) : Sound (leafNode p) := by
  refine ⟨by simp [leafNode, Shape], ?_⟩
  intro r hr
  simp only [leafNode, leafRows, Node.isNull, Bool.and_self, ↓reduceIte,
    List.mem_singleton] at hr
  rw [hr]
  exact h

theorem leafSum_leafNode (p : Char × Int) : leafSum (leafNode p) = p.2.toNat := by
  simp [leafSum, leafNode, leafRows, Node.isNull]

theorem wpl_leafNode (p : Char × Int) : wpl (leafNode p) = 0 := by
  simp [wpl, leafNode, leafRows, Node.isNull]

/-- In a sound tree the frequency of the root is the sum of the frequencies of the
leaves. -/
theorem sound_freq (t : Node) (h : Sound t) : t.freq = (leafSum t : Int) := by
  induction t with
  | null => exact absurd h.1 (by simp [Shape])
  | mk ch f l r ihl ihr =>
    obtain ⟨hs, hn⟩ := h
    simp only [Shape] at hs
    rcases hs with ⟨rfl, rfl⟩ | ⟨hl, _, hf, _, sl, sr⟩
    · have := hn (ch, f, "") (by simp [leafRows, Node.isNull])
      simp only at this
      simp [leafSum, leafRows, Node.isNull, Node.freq, Int.toNat_of_nonneg this]
    · have hrows := leafRows_mk ch f l r hl
      have hnl : ∀ x ∈ leafRows l, 0 ≤ x.2.1 := by
        intro x hx
        have := hn (x.1, x.2.1, "0" ++ x.2.2) (by
          rw [hrows]
          exact List.mem_append_left _ (List.mem_map.2 ⟨x, hx, rfl⟩))
        exact this
      have hnr : ∀ x ∈ leafRows r, 0 ≤ x.2.1 := by
        intro x hx
        have := hn (x.1, x.2.1, "1" ++ x.2.2) (by
          rw [hrows]
          exact List.mem_append_right _ (List.mem_map.2 ⟨x, hx, rfl⟩))
        exact this
      have h1 := ihl ⟨sl, hnl⟩
      have h2 := ihr ⟨sr, hnr⟩
      rw [leafSum_mk ch f l r hl]
      show f = _
      rw [hf, h1, h2]
      push_cast
      rfl

theorem sound_parentOf (l r : Node) (hl : Sound l) (hr : Sound r) (hle : l.freq ≤ r.freq)
    (hb : leafSum l + leafSum r ≤ intMax) :
    Sound (parentOf l r) ∧ (parentOf l r).freq = l.freq + r.freq := by
  have h1 := sound_freq l hl
  have h2 := sound_freq r hr
  have hw : wrapInt (l.freq + r.freq) = l.freq + r.freq := by
    unfold intMax at hb
    exact wrapInt_of_range _ (by omega) (by omega)
  have hlnull := shape_ne_null l hl.1
  refine ⟨⟨?_, ?_⟩, ?_⟩
  · rw [parentOf, Shape]
    exact Or.inr ⟨hlnull, shape_ne_null r hr.1, hw, hle, hl.1, hr.1⟩
  · intro x hx
    rw [parentOf, leafRows_mk _ _ l r hlnull] at hx
    rcases List.mem_append.1 hx with hx | hx
    · obtain ⟨y, hy, rfl⟩ := List.mem_map.1 hx
      exact hl.2 y hy
    · obtain ⟨y, hy, rfl⟩ := List.mem_map.1 hx
      exact hr.2 y hy
  · show wrapInt (l.freq + r.freq) = _
    exact hw

theorem forestLeaves_append (q1 q2 : List Node) :
    forestLeaves (q1 ++ q2) = forestLeaves q1 ++ forestLeaves q2 := by
  induction q1 with
  | nil => simp [forestLeaves]
  | cons a q1 ih => simp [forestLeaves, ih]

theorem forestLeaves_perm (q1 q2 : List Node) (h : List.Perm q1 q2) :
    List.Perm (forestLeaves q1) (forestLeaves q2) := by
  induction h with
  | nil => simp
  | cons x _ ih => exact List.Perm.append_left _ ih
  | swap x y l =>
    simp only [forestLeaves, ← List.append_assoc]
    exact List.Perm.append_right _ List.perm_append_comm
  | trans _ _ ih1 ih2 => exact ih1.trans ih2

theorem forestLeaves_map_leafNode (m : FreqTable) : forestLeaves (m.map leafNode) = m := by
  induction m with
  | nil => simp [forestLeaves]
  | cons a m ih =>
    simp [forestLeaves, ih, leaves, leafRows, leafNode, Node.isNull]

/-- A run of the merge loop keeps the leaves, whatever the frequencies are. -/
theorem merges_leaves (q : List Node) (t : Node) (h : Merges q t)
    (hq : ∀ x ∈ q, x ≠ Node.null) :
    t ≠ Node.null ∧ List.Perm (leaves t) (forestLeaves q) := by
  induction h with
  | done t =>
    exact ⟨hq t (by simp), by simp [forestLeaves]⟩
  | step q q2 l r t hperm _ _ _ ih =>
    have hl : l ≠ Node.null := hq l (hperm.symm.subset (by simp))
    have hq2 : ∀ x ∈ q2 ++ [parentOf l r], x ≠ Node.null := by
      intro x hx
      rcases List.mem_append.1 hx with hx | hx
      · exact hq x (hperm.symm.subset (by simp [hx]))
      · rw [List.mem_singleton.1 hx]
        simp [parentOf]
    obtain ⟨h1, h2⟩ := ih hq2
    refine ⟨h1, ?_⟩
    refine h2.trans ?_
    rw [forestLeaves_append]
    refine List.Perm.trans ?_ (forestLeaves_perm _ _ hperm).symm
    simp only [forestLeaves, List.append_nil, leaves_parentOf l r hl]
    rw [← List.append_assoc (leaves l)]
    exact List.perm_append_comm

/-- While the sum of the queued frequencies fits an `int`, a run of the merge loop
on sound trees builds a sound tree over the same total frequency. -/
theorem merges_sound (q : List Node) (t : Node) (h : Merges q t) :
    (∀ x ∈ q, Sound x) → (q.map leafSum).sum ≤ intMax →
      Sound t ∧ leafSum t = (q.map leafSum).sum := by
  induction h with
  | done t =>
    intro hq _
    exact ⟨hq t (by simp), by simp⟩
  | step q q2 l r t hperm hl _ _ ih =>
    intro hq hb
    have sl : Sound l := hq l (hperm.symm.subset (by simp))
    have sr : Sound r := hq r (hperm.symm.subset (by simp))
    have hle : l.freq ≤ r.freq := hl r (hperm.symm.subset (by simp))
    have hsum : (q.map leafSum).sum = leafSum l + (leafSum r + (q2.map leafSum).sum) := by
      rw [(hperm.map leafSum).sum_eq]
      simp
    obtain ⟨sp, _⟩ := sound_parentOf l r sl sr hle (by omega)
    have hq2 : ∀ x ∈ q2 ++ [parentOf l r], Sound x := by
      intro x hx
      rcases List.mem_append.1 hx with hx | hx
      · exact hq x (hperm.symm.subset (by simp [hx]))
      · rw [List.mem_singleton.1 hx]
        exact sp
    have hsum2 : ((q2 ++ [parentOf l r]).map leafSum).sum = (q.map leafSum).sum := by
      simp only [List.map_append, List.map_cons, List.map_nil, List.sum_append,
        List.sum_cons, List.sum_nil, parentOf, leafSum_mk _ _ l r (shape_ne_null l sl.1)]
      omega
    obtain ⟨h1, h2⟩ := ih hq2 (by omega)
    exact ⟨h1, by omega⟩

/-! ## The result of `buildHuffmanTree` -/

theorem toList_ne_nil (text : String) (h : text ≠ "") : text.toList ≠ [] := by
  intro e
  apply h
  exact String.ext e

theorem length_toList (text : String) : text.toList.length = text.length := rfl

theorem pushLeaves_eq (m : FreqTable) (pq : List Node) :
    pushLeaves m pq = pq ++ m.map leafNode := by
  induction m generalizing pq with
  | nil => simp [pushLeaves]
  | cons a m ih =>
    simp only [pushLeaves, List.foldl_cons] at ih ⊢
    rw [ih]
    simp [pqPush, leafNode]

/-- The occurrence numbers counted from the empty table. -/
theorem countNat_nil_spec (l : List Char) :
    (∀ c, c ∈ (countNat l []).keys ↔ c ∈ l) ∧
    ((countNat l []).keys).Nodup ∧
    (∀ c, (countNat l []).read c 0 = l.count c) ∧
    ((countNat l []).map Prod.snd).sum = l.length := by
  obtain ⟨h1, h2, h3, h4⟩ := countNat_spec l []
  refine ⟨?_, ?_, ?_, ?_⟩
  · intro c
    simpa [Table.keys] using h1 c
  · exact h2 (by simp [Table.keys])
  · intro c
    simpa [Table.read] using h3 c
  · simpa using h4

theorem countNat_mem (l : List Char) (c : Char) (n : Nat) :
    (c, n) ∈ countNat l [] ↔ c ∈ l ∧ n = l.count c := by
  obtain ⟨h1, h2, h3, _⟩ := countNat_nil_spec l
  constructor
  · intro h
    have hk : c ∈ (countNat l []).keys := List.mem_map.2 ⟨(c, n), h, rfl⟩
    refine ⟨(h1 c).1 hk, ?_⟩
    rw [← h3 c, Table.read_of_mem _ h2 c n 0 h]
  · rintro ⟨hc, rfl⟩
    rw [← h3 c]
    exact Table.mem_of_mem_keys _ c 0 ((h1 c).2 hc)

/-- The frequency table counted from the empty map: the keys are the characters of
the text, each once, and the value of a key is its number of occurrences as an
`int`. -/
theorem countFreq_spec (text : String) :
    (∀ c, c ∈ (countFreq text []).keys ↔ c ∈ text.toList) ∧
    ((countFreq text []).keys).Nodup ∧
    (∀ c, (countFreq text []).read c 0 = wrapInt (text.toList.count c : Int)) := by
  obtain ⟨h1, h2, h3, _⟩ := countNat_nil_spec text.toList
  rw [countFreq_eq_asInts, keys_asInts]
  refine ⟨h1, h2, ?_⟩
  intro c
  rw [read_asInts, h3]

theorem countFreq_mem (text : String) (c : Char) (v : Int) :
    (c, v) ∈ countFreq text [] ↔
      c ∈ text.toList ∧ v = wrapInt (text.toList.count c : Int) := by
  rw [countFreq_eq_asInts]
  simp only [asInts, List.mem_map, Prod.mk.injEq]
  constructor
  · rintro ⟨⟨c', n⟩, hmem, rfl, rfl⟩
    obtain ⟨hc, hn⟩ := (countNat_mem _ _ _).1 hmem
    exact ⟨hc, by rw [hn]⟩
  · intro h
    exact ⟨(c, text.toList.count c), (countNat_mem _ _ _).2 ⟨h.1, rfl⟩, rfl, h.2.symm⟩

/-- When no character occurs more often than an `int` can count, the frequency
table holds the occurrence numbers themselves. -/
theorem countFreq_bounded (text : String) (h : ∀ c, text.toList.count c ≤ intMax) :
    countFreq text [] =
      (countNat text.toList []).map (fun p => (p.1, (p.2 : Int))) := by
  rw [countFreq_eq_asInts, asInts]
  apply List.map_congr_left
  intro p hp
  obtain ⟨_, hn⟩ := (countNat_mem _ p.1 p.2).1 hp
  rw [wrapInt_natCast]
  rw [hn]
  exact h p.1

theorem count_le_of_length (text : String) (h : text.length ≤ intMax) (c : Char) :
    text.toList.count c ≤ intMax :=
  (List.count_le_length _ _).trans h

/-- On a non-empty text and under a valid tie-break `buildHuffmanTree` returns: the
root is the outcome of a run of the merge loop on the leaves of the frequency table,
the leaves of the tree are the entries of the frequency table, and the code table
holds the root-to-leaf paths of the tree. -/
theorem build_struct (sel : TieBreak) (hsel : ValidTieBreak sel) (text : String)
    (hne : text ≠ "") :
    ∃ t, buildHuffmanTree sel text [] [] =
        Except.ok ⟨t, leafPaths t, countFreq text []⟩ ∧
      Merges ((countFreq text []).map leafNode) t ∧
      List.Perm (leaves t) (countFreq text []) := by
  obtain ⟨h1, h2, _⟩ := countFreq_spec text
  have hq : (countFreq text []).map leafNode ≠ [] := by
    obtain ⟨c, hc⟩ := List.exists_mem_of_ne_nil _ (toList_ne_nil text hne)
    have := (h1 c).2 hc
    intro e
    rw [List.map_eq_nil_iff] at e
    rw [e] at this
    simp [Table.keys] at this
  obtain ⟨t, ht1, ht2⟩ := mergeLoop_merges sel hsel
    ((countFreq text []).map leafNode).length _ hq (by omega)
  have hnull : ∀ x ∈ (countFreq text []).map leafNode, x ≠ Node.null := by
    intro x hx
    obtain ⟨p, _, rfl⟩ := List.mem_map.1 hx
    simp [leafNode]
  obtain ⟨_, s2⟩ := merges_leaves _ t ht2 hnull
  rw [forestLeaves_map_leafNode] at s2
  have htop : pqTop sel [t] = some t := by
    obtain ⟨x, hx1, hx2, _⟩ := top_pop_spec sel hsel [t] (by simp)
    have : x ∈ [t] := hx2.symm.subset (by simp)
    rw [List.mem_singleton.1 this] at hx1
    exact hx1
  have hnodup : ((leafPaths t).keys).Nodup := by
    rw [leafPaths_keys]
    exact (List.Perm.nodup_iff (s2.map Prod.fst)).2 h2
  refine ⟨t, ?_, ht2, s2⟩
  simp only [buildHuffmanTree, pushLeaves_eq, List.nil_append, ht1, htop,
    generateCodes_eq_leafPaths t hnodup]

/-- The sum of the leaf frequencies queued for a text that an `int` can count. -/
theorem queue_sum (text : String) (hlen : text.length ≤ intMax) :
    (∀ x ∈ (countFreq text []).map leafNode, Sound x) ∧
    (((countFreq text []).map leafNode).map leafSum).sum = text.length := by
  rw [countFreq_bounded text (count_le_of_length text hlen)]
  constructor
  · intro x hx
    simp only [List.map_map, List.mem_map, Function.comp_def] at hx
    obtain ⟨p, _, rfl⟩ := hx
    exact sound_leafNode _ (by simp)
  · simp only [List.map_map, Function.comp_def, leafSum_leafNode, Int.toNat_ofNat]
    exact (countNat_nil_spec text.toList).2.2.2

/-- For a non-empty text that an `int` can count, the tree returned by
`buildHuffmanTree` is sound and the frequency of its root is the length of the
text. -/
theorem build_sound (sel : TieBreak) (hsel : ValidTieBreak sel) (text : String)
    (hne : text ≠ "") (hlen : text.length ≤ intMax) :
    ∃ t, buildHuffmanTree sel text [] [] =
        Except.ok ⟨t, leafPaths t, countFreq text []⟩ ∧
      Merges ((countFreq text []).map leafNode) t ∧
      List.Perm (leaves t) (countFreq text []) ∧
      Sound t ∧ leafSum t = text.length ∧ t.freq = (text.length : Int) := by
  obtain ⟨t, ht, hm, hperm⟩ := build_struct sel hsel text hne
  obtain ⟨hq, hsum⟩ := queue_sum text hlen
  obtain ⟨hs, hl⟩ := merges_sound _ t hm hq (by omega)
  refine ⟨t, ht, hm, hperm, hs, by omega, ?_⟩
  rw [sound_freq t hs, hl, hsum]

/-! ## Weighted binary codes -/

theorem cost_perm (P P' : List (Nat × List Bool)) (h : List.Perm P P') : cost P = cost P' :=
  (h.map _).sum_eq

theorem cost_cons (e : Nat × List Bool) (P : List (Nat × List Bool)) :
    cost (e :: P) = e.1 * e.2.length + cost P := by
  simp [cost]

theorem exists_longest {β : Type} (f : β → Nat) :
    ∀ l : List β, l ≠ [] → ∃ e ∈ l, ∀ e' ∈ l, f e' ≤ f e := by
  intro l
  induction l with
  | nil => intro h; exact absurd rfl h
  | cons a l ih =>
    intro _
    by_cases hl : l = []
    · subst hl
      exact ⟨a, by simp, by simp⟩
    · obtain ⟨e, he, hmax⟩ := ih hl
      by_cases hae : f e ≤ f a
      · refine ⟨a, by simp, ?_⟩
        intro e' he'
        rcases List.mem_cons.1 he' with rfl | h'
        · exact le_refl _
        · exact (hmax e' h').trans hae
      · refine ⟨e, by simp [he], ?_⟩
        intro e' he'
        rcases List.mem_cons.1 he' with rfl | h'
        · omega
        · exact hmax e' h'

theorem perm_of_mem {β : Type} (e : β) (l : List β) (h : e ∈ l) :
    ∃ l', List.Perm l (e :: l') := by
  obtain ⟨s, t, rfl⟩ := List.append_of_mem h
  exact ⟨s ++ t, List.perm_middle⟩

theorem swap_ineq (a x w c : Nat) (h1 : a ≤ x) (h2 : w ≤ c) :
    a * c + x * w ≤ x * c + a * w := by
  obtain ⟨k, rfl⟩ := Nat.exists_eq_add_of_le h1
  obtain ⟨m, rfl⟩ := Nat.exists_eq_add_of_le h2
  nlinarith [Nat.zero_le (k * m)]

/-- Moving a least weight to a longest word does not raise the cost. -/
theorem swap_min (P Q : List (Nat × List Bool)) (x : Nat) (c : List Bool) (a : Nat)
    (hP : List.Perm P ((x, c) :: Q)) (ha : a ∈ P.map Prod.fst)
    (hmin : ∀ z ∈ P.map Prod.fst, a ≤ z) (hlong : ∀ e ∈ P, e.2.length ≤ c.length) :
    ∃ Q1 : List (Nat × List Bool), List.Perm (Q1.map Prod.snd) (Q.map Prod.snd) ∧
      List.Perm (a :: Q1.map Prod.fst) (P.map Prod.fst) ∧
      a * c.length + cost Q1 ≤ cost P := by
  have ha1 : a ∈ x :: Q.map Prod.fst := by
    have := (hP.map Prod.fst).subset ha
    simpa using this
  by_cases hax : a = x
  · subst hax
    refine ⟨Q, List.Perm.refl _, ?_, ?_⟩
    · have := (hP.map Prod.fst).symm
      simpa using this
    · rw [cost_perm P _ hP, cost_cons]
  · have ha2 : a ∈ Q.map Prod.fst := by
      rcases List.mem_cons.1 ha1 with h | h
      · exact absurd h hax
      · exact h
    obtain ⟨⟨a', w⟩, hmem, hEq⟩ := List.mem_map.1 ha2
    simp only at hEq
    subst hEq
    obtain ⟨R, hQ⟩ := perm_of_mem (a', w) Q hmem
    have hP2 : List.Perm P ((x, c) :: (a', w) :: R) :=
      hP.trans (List.Perm.cons _ hQ)
    refine ⟨(x, w) :: R, ?_, ?_, ?_⟩
    · have := (hQ.map Prod.snd).symm
      simpa using this
    · have := (hP2.map Prod.fst).symm
      simp only [List.map_cons] at this ⊢
      exact (List.Perm.swap x a' _).trans this
    · have hx : a' ≤ x := hmin x (by
        have := (hP.map Prod.fst).symm.subset (List.mem_cons_self x _)
        simpa using this)
      have hwc : w.length ≤ c.length :=
        hlong (a', w) (hP2.symm.subset (by simp))
      rw [cost_perm P _ hP2]
      simp only [cost_cons]
      have := swap_ineq a' x w.length c.length hx hwc
      omega

/-- Replacing a longest word by its parent keeps the code prefix-free when the
sibling of the word is not in the code. -/
theorem pf_parent (p : List Bool) (bit : Bool) (W : List (List Bool))
    (hpf : PrefixFreeWords ((p ++ [bit]) :: W))
    (hlen : ∀ w ∈ W, w.length ≤ p.length + 1)
    (hsib : p ++ [!bit] ∉ W) : PrefixFreeWords (p :: W) := by
  unfold PrefixFreeWords at hpf ⊢
  rw [List.pairwise_cons] at hpf ⊢
  refine ⟨?_, hpf.2⟩
  intro w hw
  obtain ⟨h1, h2⟩ := hpf.1 w hw
  constructor
  · rintro ⟨t, ht⟩
    have hl := hlen w hw
    rw [← ht] at hl
    simp only [List.length_append] at hl
    match t, ht, hl with
    | [], ht, _ =>
      apply h2
      rw [← ht, List.append_nil]
      exact List.prefix_append p [bit]
    | [x], ht, _ =>
      by_cases hx : x = bit
      · apply h1
        rw [← ht, hx]
      · have : x = !bit := by
          cases x <;> cases bit <;> simp_all
        apply hsib
        rw [← this, ht]
        exact hw
    | _ :: _ :: _, _, hl => simp at hl
  · intro h
    exact h2 (h.trans (List.prefix_append p [bit]))

/-- The reduction step of the optimality argument: in a prefix-free weighted code
with at least two words, the two least weights can be merged into one word, which
lowers the cost by at least their sum. -/
theorem reduce_profile : ∀ (n : Nat) (P : List (Nat × List Bool)),
    (P.map (fun e => e.2.length)).sum ≤ n → PrefixFreeWords (P.map Prod.snd) →
    ∀ (a b : Nat) (rest : List Nat), List.Perm (P.map Prod.fst) (a :: b :: rest) →
      (∀ z ∈ b :: rest, a ≤ z) → (∀ z ∈ rest, b ≤ z) →
      ∃ P' : List (Nat × List Bool), PrefixFreeWords (P'.map Prod.snd) ∧
        List.Perm (P'.map Prod.fst) ((a + b) :: rest) ∧ cost P' + a + b ≤ cost P := by
  intro n
  induction n using Nat.strong_induction_on with
  | _ n ih =>
    intro P htot hpf a b rest hw hmina hminb
    have hlenP : P.length = rest.length + 2 := by
      have := hw.length_eq
      simpa using this
    have hPne : P ≠ [] := by
      intro e
      simp [e] at hlenP
    obtain ⟨⟨x, c⟩, he, hmax⟩ :=
      exists_longest (fun e : Nat × List Bool => e.2.length) P hPne
    simp only at hmax
    obtain ⟨Q, hPQ⟩ := perm_of_mem (x, c) P he
    have hQlen : Q.length = rest.length + 1 := by
      have := hPQ.length_eq
      simp only [List.length_cons] at this
      omega
    have hpf1 : PrefixFreeWords (c :: Q.map Prod.snd) :=
      (List.Perm.pairwise_iff (fun {_ _} h => incomparable_symm h) (hPQ.map Prod.snd)).1 hpf
    obtain ⟨e2, he2⟩ : ∃ e2, e2 ∈ Q := List.exists_mem_of_length_pos (by omega)
    have hc : c ≠ [] := by
      rintro rfl
      have := (List.pairwise_cons.1 hpf1).1 e2.2 (List.mem_map_of_mem _ he2)
      exact this.1 List.nil_prefix
    obtain ⟨p, bit, rfl⟩ : ∃ p bit, c = p ++ [bit] :=
      ⟨c.dropLast, c.getLast hc, (List.dropLast_append_getLast hc).symm⟩
    have hQP : ∀ e ∈ Q, e ∈ P := fun e h => hPQ.symm.subset (List.mem_cons_of_mem _ h)
    have hminP : ∀ z ∈ P.map Prod.fst, a ≤ z := by
      intro z hz
      rcases List.mem_cons.1 (hw.subset hz) with rfl | h
      · exact le_refl _
      · exact hmina z h
    have hlenQ : ∀ w ∈ Q.map Prod.snd, w.length ≤ p.length + 1 := by
      intro w hw'
      obtain ⟨e, he', rfl⟩ := List.mem_map.1 hw'
      have := hmax e (hQP e he')
      simpa using this
    by_cases hs : (p ++ [!bit]) ∈ Q.map Prod.snd
    · obtain ⟨Q1, hQ1w, hQ1f, hQ1c⟩ := swap_min P Q x (p ++ [bit]) a hPQ
        (hw.symm.subset (by simp)) hminP (fun e he' => hmax e he')
      have hQ1f' : List.Perm (Q1.map Prod.fst) (b :: rest) := (hQ1f.trans hw).cons_inv
      have hs1 : (p ++ [!bit]) ∈ Q1.map Prod.snd := hQ1w.symm.subset hs
      obtain ⟨⟨y, s'⟩, hy, hys⟩ := List.mem_map.1 hs1
      simp only at hys
      subst hys
      obtain ⟨R, hQ1R⟩ := perm_of_mem (y, p ++ [!bit]) Q1 hy
      have hlong1 : ∀ e ∈ Q1, e.2.length ≤ (p ++ [!bit]).length := by
        intro e he'
        have := hlenQ e.2 (hQ1w.subset (List.mem_map_of_mem _ he'))
        simpa using this
      obtain ⟨Q2, hQ2w, hQ2f, hQ2c⟩ := swap_min Q1 R y (p ++ [!bit]) b hQ1R
        (hQ1f'.symm.subset (by simp))
        (fun z hz => by
          rcases List.mem_cons.1 (hQ1f'.subset hz) with rfl | h
          · exact le_refl _
          · exact hminb z h)
        hlong1
      have hQ2f' : List.Perm (Q2.map Prod.fst) rest := (hQ2f.trans hQ1f').cons_inv
      have hWperm : List.Perm (Q.map Prod.snd) ((p ++ [!bit]) :: R.map Prod.snd) := by
        have := hQ1R.map Prod.snd
        simp only [List.map_cons] at this
        exact hQ1w.symm.trans this
      have hpf2 : PrefixFreeWords ((p ++ [bit]) :: (p ++ [!bit]) :: R.map Prod.snd) :=
        (List.Perm.pairwise_iff (fun {_ _} h => incomparable_symm h)
          (List.Perm.cons _ hWperm)).1 hpf1
      have hpf3 : PrefixFreeWords ((p ++ [bit]) :: R.map Prod.snd) :=
        List.Pairwise.sublist (List.Sublist.cons₂ _ (List.sublist_cons_self _ _)) hpf2
      have hsibR : (p ++ [!bit]) ∉ R.map Prod.snd := by
        intro hmem
        have h := (List.pairwise_cons.1 (List.pairwise_cons.1 hpf2).2).1 _ hmem
        exact h.1 (List.prefix_refl _)
      have hlenR : ∀ w ∈ R.map Prod.snd, w.length ≤ p.length + 1 := by
        intro w hw'
        exact hlenQ w (hWperm.symm.subset (List.mem_cons_of_mem _ hw'))
      have hpf4 : PrefixFreeWords (p :: R.map Prod.snd) :=
        pf_parent p bit _ hpf3 hlenR hsibR
      refine ⟨(a + b, p) :: Q2, ?_, ?_, ?_⟩
      · simp only [List.map_cons]
        exact (List.Perm.pairwise_iff (fun {_ _} h => incomparable_symm h)
          (List.Perm.cons p hQ2w)).2 hpf4
      · simp only [List.map_cons]
        exact List.Perm.cons _ hQ2f'
      · simp only [cost_cons, List.length_append, List.length_singleton] at hQ1c hQ2c ⊢
        have e1 : (a + b) * p.length = a * p.length + b * p.length := by ring
        have e2 : a * (p.length + 1) = a * p.length + a := by ring
        have e3 : b * (p.length + 1) = b * p.length + b := by ring
        omega
    · have hcostP : cost P = x * (p.length + 1) + cost Q := by
        rw [cost_perm P _ hPQ, cost_cons]
        simp
      have htotP : (P.map (fun e => e.2.length)).sum =
          p.length + 1 + (Q.map (fun e => e.2.length)).sum := by
        rw [(hPQ.map (fun e => e.2.length)).sum_eq]
        simp
      have hpf0 : PrefixFreeWords (p :: Q.map Prod.snd) :=
        pf_parent p bit _ hpf1 hlenQ hs
      obtain ⟨P', h1, h2, h3⟩ := ih (n - 1) (by omega) ((x, p) :: Q)
        (by simp only [List.map_cons, List.sum_cons]; omega)
        (by simpa using hpf0) a b rest
        (by
          have := (hPQ.map Prod.fst).symm.trans hw
          simpa using this)
        hmina hminb
      refine ⟨P', h1, h2, ?_⟩
      rw [cost_cons] at h3
      have e2 : x * (p.length + 1) = x * p.length + x := by ring
      simp only at h3
      omega

/-! ## Optimality of the merge loop -/

/-- While the sum of the queued frequencies fits an `int`, every run of the merge
loop is at least as good as any prefix-free weighted code for the queued
frequencies. -/
theorem merges_opt (q : List Node) (t : Node) (h : Merges q t) :
    (∀ x ∈ q, Sound x) → (q.map leafSum).sum ≤ intMax →
    ∀ P : List (Nat × List Bool), PrefixFreeWords (P.map Prod.snd) →
      List.Perm (P.map Prod.fst) (q.map leafSum) → wpl t ≤ (q.map wpl).sum + cost P := by
  induction h with
  | done t =>
    intro _ _ P _ _
    simp
  | step q q2 l r t hperm hl hr _ ih =>
    intro hq hb P hpf hw
    have sl : Sound l := hq l (hperm.symm.subset (by simp))
    have sr : Sound r := hq r (hperm.symm.subset (by simp))
    have hle : l.freq ≤ r.freq := hl r (hperm.symm.subset (by simp))
    have hsumq : (q.map leafSum).sum = leafSum l + (leafSum r + (q2.map leafSum).sum) := by
      rw [(hperm.map leafSum).sum_eq]
      simp
    obtain ⟨sp, _⟩ := sound_parentOf l r sl sr hle (by omega)
    have hq2 : ∀ x ∈ q2 ++ [parentOf l r], Sound x := by
      intro x hx
      rcases List.mem_append.1 hx with hx | hx
      · exact hq x (hperm.symm.subset (by simp [hx]))
      · rw [List.mem_singleton.1 hx]
        exact sp
    have hpar : leafSum (parentOf l r) = leafSum l + leafSum r := by
      rw [parentOf, leafSum_mk _ _ l r (shape_ne_null l sl.1)]
    have hsum2 : ((q2 ++ [parentOf l r]).map leafSum).sum = (q.map leafSum).sum := by
      simp only [List.map_append, List.map_cons, List.map_nil, List.sum_append,
        List.sum_cons, List.sum_nil, hpar]
      omega
    have hle_of : ∀ x y : Node, Sound x → Sound y → x.freq ≤ y.freq →
        leafSum x ≤ leafSum y := by
      intro x y sx sy hxy
      rw [sound_freq x sx, sound_freq y sy] at hxy
      exact Int.ofNat_le.1 hxy
    have hw2 : List.Perm (P.map Prod.fst) (leafSum l :: leafSum r :: q2.map leafSum) := by
      have := hperm.map leafSum
      simp only [List.map_cons] at this
      exact hw.trans this
    obtain ⟨P', h1, h2, h3⟩ := reduce_profile _ P (le_refl _) hpf (leafSum l) (leafSum r)
      (q2.map leafSum) hw2
      (by
        intro z hz
        rcases List.mem_cons.1 hz with rfl | hz
        · exact hle_of l r sl sr hle
        · obtain ⟨x, hx, rfl⟩ := List.mem_map.1 hz
          have hxq : x ∈ q := hperm.symm.subset (by simp [hx])
          exact hle_of l x sl (hq x hxq) (hl x hxq))
      (by
        intro z hz
        obtain ⟨x, hx, rfl⟩ := List.mem_map.1 hz
        have hxq : x ∈ q := hperm.symm.subset (by simp [hx])
        exact hle_of r x sr (hq x hxq) (hr x hx))
    have h2' : List.Perm (P'.map Prod.fst) ((q2 ++ [parentOf l r]).map leafSum) := by
      refine h2.trans ?_
      simp only [List.map_append, List.map_cons, List.map_nil, hpar]
      exact (List.perm_append_singleton _ _).symm
    have := ih hq2 (by omega) P' h1 h2'
    have hsum : (q.map wpl).sum = wpl l + (wpl r + (q2.map wpl).sum) := by
      rw [(hperm.map wpl).sum_eq]
      simp
    have hp := wpl_parentOf l r (shape_ne_null l sl.1)
    simp only [List.map_append, List.map_cons, List.map_nil, List.sum_append, List.sum_cons,
      List.sum_nil] at this
    omega

/-! ## Sums over the text -/

theorem foldl_wrap_eq (g : Char → Nat) (l : List Char) (z : Int) :
    l.foldl (fun bits ch => wrapInt (bits + (g ch : Int))) (wrapInt z) =
      wrapInt (z + ((l.map g).sum : Nat)) := by
  induction l generalizing z with
  | nil => simp
  | cons a l ih =>
    simp only [List.foldl_cons, List.map_cons, List.sum_cons]
    rw [wrapInt_add_wrap, ih]
    congr 1
    push_cast
    ring

/-- The compressed bit size is the total code length, as an `int`. -/
theorem getCompressedBitSize_eq (text : String) (huffmanCode : CodeTable) :
    getCompressedBitSize text huffmanCode =
      wrapInt ((textCodeSum text huffmanCode : Nat) : Int) := by
  have h0 : wrapInt 0 = 0 := by decide
  have := foldl_wrap_eq (fun ch => (huffmanCode.read ch "").length) text.toList 0
  rw [h0] at this
  simpa [getCompressedBitSize, textCodeSum] using this

theorem weightedNat_modify (g : Char → Nat) (m : Table Nat) (k : Char) :
    weightedNat g (m.modify k 0 (fun v => v + 1)) = weightedNat g m + g k := by
  induction m with
  | nil => simp [Table.modify, weightedNat]
  | cons p rest ih =>
    obtain ⟨k', v⟩ := p
    by_cases h : k' = k
    · subst h
      simp only [Table.modify, weightedNat, ↓reduceIte, List.map_cons, List.sum_cons]
      have : (v + 1) * g k' = v * g k' + g k' := by ring
      omega
    · simp only [weightedNat] at ih
      simp only [Table.modify, weightedNat, h, ↓reduceIte, List.map_cons, List.sum_cons, ih]
      omega

theorem weightedNat_countNat (g : Char → Nat) (l : List Char) (m : Table Nat) :
    weightedNat g (countNat l m) = weightedNat g m + (l.map g).sum := by
  induction l generalizing m with
  | nil => simp [countNat]
  | cons a l ih =>
    simp only [countNat, List.foldl_cons] at ih ⊢
    rw [ih, weightedNat_modify, List.map_cons, List.sum_cons]
    omega

/-- A sum over the characters of the text is a sum over the occurrence numbers. -/
theorem weightedNat_nil (g : Char → Nat) (l : List Char) :
    weightedNat g (countNat l []) = (l.map g).sum := by
  have := weightedNat_countNat g l []
  simpa [weightedNat] using this

/-- For a text whose characters an `int` can count, a sum over the characters of the
text is the sum over the frequency table of frequency times value. -/
theorem weighted_countFreq (g : Char → Nat) (text : String)
    (h : ∀ c, text.toList.count c ≤ intMax) :
    weighted g (countFreq text []) = (((text.toList.map g).sum : Nat) : Int) := by
  rw [countFreq_bounded text h, ← weightedNat_nil]
  simp only [weighted, weightedNat, List.map_map, Function.comp_def]
  induction countNat text.toList [] with
  | nil => simp
  | cons p m ih =>
    simp only [List.map_cons, List.sum_cons, ih]
    push_cast
    rfl

/-- For a text whose characters an `int` can count, the total code length under the
paths of the tree is the weighted path length of the tree. -/
theorem textCodeSum_eq_wpl (text : String) (t : Node)
    (h : ∀ c, text.toList.count c ≤ intMax)
    (hperm : List.Perm (leaves t) (countFreq text [])) :
    textCodeSum text (leafPaths t) = wpl t := by
  have hnodup : ((leafPaths t).keys).Nodup := by
    rw [leafPaths_keys]
    exact (List.Perm.nodup_iff (hperm.map Prod.fst)).2 (countFreq_spec text).2.1
  rw [textCodeSum, ← weightedNat_nil (fun ch => ((leafPaths t).read ch "").length)]
  rw [countFreq_bounded text h] at hperm
  have e : weightedNat (fun ch => ((leafPaths t).read ch "").length)
      (countNat text.toList []) =
      (((countNat text.toList []).map (fun p => (p.1, (p.2 : Int)))).map
        (fun p => p.2.toNat * ((leafPaths t).read p.1 "").length)).sum := by
    simp [weightedNat, Function.comp_def]
  rw [e, ← (hperm.map _).sum_eq]
  simp only [leaves, wpl, List.map_map]
  congr 1
  apply List.map_congr_left
  intro r hr
  have hmem : (r.1, r.2.2) ∈ leafPaths t := List.mem_map.2 ⟨r, hr, rfl⟩
  simp [Table.read_of_mem _ hnodup _ _ "" hmem]

/-! ## Competing codes -/

theorem beginning_of_bits (u v : List Char) (hu : ∀ c ∈ u, c = '0' ∨ c = '1')
    (hv : ∀ c ∈ v, c = '0' ∨ c = '1')
    (h : u.map (fun c => decide (c = '1')) <+: v.map (fun c => decide (c = '1'))) :
    u <+: v := by
  induction u generalizing v with
  | nil => exact List.nil_prefix
  | cons a u ih =>
    cases v with
    | nil => simp at h
    | cons b v =>
      simp only [List.map_cons, List.cons_prefix_cons] at h
      have hab : a = b := by
        have ha := hu a (by simp)
        have hb := hv b (by simp)
        have h1 := h.1
        rcases ha with rfl | rfl <;> rcases hb with rfl | rfl <;> simp_all
      subst hab
      rw [List.cons_prefix_cons]
      exact ⟨rfl, ih v (fun c hc => hu c (by simp [hc])) (fun c hc => hv c (by simp [hc])) h.2⟩

theorem distinctChars_eq (text : String) :
    distinctChars text = (countFreq text []).length := by
  obtain ⟨h1, h2, _⟩ := countFreq_spec text
  have : List.Perm (countFreq text []).keys text.toList.dedup := by
    rw [List.perm_ext_iff_of_nodup h2 (List.nodup_dedup _)]
    intro a
    rw [h1 a, List.mem_dedup]
  have := this.length_eq
  simp only [Table.keys, List.length_map] at this
  rw [distinctChars, this]

theorem ne_empty_of_distinct (text : String) (h : 1 ≤ distinctChars text) : text ≠ "" := by
  rintro rfl
  simp [distinctChars] at h

/-- For a text that an `int` can count, the table built by `buildHuffmanTree`
compresses the text at least as well as any assignment of binary strings to the
characters of the text in which no string is a beginning of another. -/
theorem build_optimal (sel : TieBreak) (hsel : ValidTieBreak sel) (text : String)
    (hne : text ≠ "") (hlen : text.length ≤ intMax) (code : Char → String)
    (hbin : ∀ a ∈ text.toList, Binary (code a))
    (hpf : ∀ a ∈ text.toList, ∀ b ∈ text.toList, a ≠ b → ¬ IsBeginning (code a) (code b)) :
    ∃ t, buildHuffmanTree sel text [] [] =
        Except.ok ⟨t, leafPaths t, countFreq text []⟩ ∧
      List.Perm (leaves t) (countFreq text []) ∧
      textCodeSum text (leafPaths t) ≤ (text.toList.map (fun c => (code c).length)).sum := by
  obtain ⟨t, ht, hm, hperm, _, _, _⟩ := build_sound sel hsel text hne hlen
  refine ⟨t, ht, hperm, ?_⟩
  obtain ⟨h1, h2, _, _⟩ := countNat_nil_spec text.toList
  obtain ⟨hq, hsum⟩ := queue_sum text hlen
  have hcount := count_le_of_length text hlen
  have hpfw : PrefixFreeWords
      (((countNat text.toList []).map (fun p => (p.2, bits (code p.1)))).map Prod.snd) := by
    rw [List.map_map]
    have e : (Prod.snd ∘ fun p : Char × Nat => (p.2, bits (code p.1))) =
        (fun c => bits (code c)) ∘ Prod.fst := by
      funext p
      rfl
    rw [e, ← List.map_map]
    unfold PrefixFreeWords
    rw [List.pairwise_map]
    have hk : (List.map Prod.fst (countNat text.toList [])).Pairwise (fun a b => a ≠ b) := h2
    refine List.Pairwise.imp_of_mem ?_ hk
    intro a b ha hb hab
    have hat := (h1 a).1 ha
    have hbt := (h1 b).1 hb
    constructor
    · intro hp
      exact hpf a hat b hbt hab
        (beginning_of_bits _ _ (hbin a hat) (hbin b hbt) hp)
    · intro hp
      exact hpf b hbt a hat (fun e => hab e.symm)
        (beginning_of_bits _ _ (hbin b hbt) (hbin a hat) hp)
  have hw : List.Perm
      (((countNat text.toList []).map (fun p => (p.2, bits (code p.1)))).map Prod.fst)
      (((countFreq text []).map leafNode).map leafSum) := by
    rw [countFreq_bounded text hcount]
    simp only [List.map_map]
    exact List.Perm.of_eq (List.map_congr_left (fun p _ => by
      simp [Function.comp_def, leafSum_leafNode]))
  have hopt := merges_opt _ t hm hq (by omega) _ hpfw hw
  have hzero : (((countFreq text []).map leafNode).map wpl).sum = 0 := by
    rw [List.sum_eq_zero]
    intro x hx
    obtain ⟨y, hy, rfl⟩ := List.mem_map.1 hx
    obtain ⟨p, _, rfl⟩ := List.mem_map.1 hy
    exact wpl_leafNode p
  have hcost : cost ((countNat text.toList []).map (fun p => (p.2, bits (code p.1)))) =
      (text.toList.map (fun c => (code c).length)).sum := by
    rw [← weightedNat_nil (fun c => (code c).length) text.toList]
    simp only [cost, weightedNat, List.map_map]
    congr 1
    apply List.map_congr_left
    intro p _
    simp only [Function.comp_def, bits, List.length_map]
    rfl
  rw [textCodeSum_eq_wpl text t hcount hperm]
  omega

/-! ## The code of a character of the text -/

/-- In the built tree every character of the text has a leaf; the table maps the
character to the path of that leaf, and the leaf carries the frequency of the
character. -/
theorem row_of_mem (text : String) (t : Node)
    (hperm : List.Perm (leaves t) (countFreq text [])) (a : Char) (ha : a ∈ text.toList) :
    ∃ r ∈ leafRows t, r.1 = a ∧ (leafPaths t).read a "" = r.2.2 ∧
      r.2.1 = wrapInt (text.toList.count a : Int) := by
  obtain ⟨h1, h2, _⟩ := countFreq_spec text
  have hnodup : ((leafPaths t).keys).Nodup := by
    rw [leafPaths_keys]
    exact (List.Perm.nodup_iff (hperm.map Prod.fst)).2 h2
  have hmem : (a, wrapInt (text.toList.count a : Int)) ∈ leaves t :=
    hperm.symm.subset ((countFreq_mem text a _).2 ⟨ha, rfl⟩)
  obtain ⟨r, hr, hra⟩ := List.mem_map.1 hmem
  simp only [Prod.mk.injEq] at hra
  refine ⟨r, hr, hra.1, ?_, hra.2⟩
  have : (a, r.2.2) ∈ leafPaths t := List.mem_map.2 ⟨r, hr, by rw [hra.1]⟩
  exact Table.read_of_mem _ hnodup _ _ "" this

theorem merges_singleton (x t : Node) (h : Merges [x] t) : t = x := by
  rcases h with _ | ⟨_, q2, l, r, _, hperm, _, _, _⟩
  · rfl
  · have := hperm.length_eq
    simp at this

theorem merges_pair (n1 n2 t : Node) (h : Merges [n1, n2] t) :
    ∃ l r, t = parentOf l r ∧ List.Perm [n1, n2] [l, r] ∧ l.freq ≤ r.freq := by
  rcases h with _ | ⟨_, q2, l, r, _, hperm, hl, _, hrest⟩
  have hlen := hperm.length_eq
  simp only [List.length_cons, List.length_nil] at hlen
  have hq2 : q2 = [] := List.length_eq_zero.1 (by omega)
  subst hq2
  refine ⟨l, r, merges_singleton _ _ hrest, hperm, ?_⟩
  exact hl r (hperm.symm.subset (by simp))

/-- The frequency table returned by `buildHuffmanTree` is the one counted. -/
theorem built_freq_eq (text : String) (sel : TieBreak) (huffmanCode : CodeTable)
    (b : Built) (hb : buildHuffmanTree sel text huffmanCode [] = Except.ok b) :
    b.freq = countFreq text [] := by
  simp only [buildHuffmanTree] at hb
  split at hb
  · cases hb
  · split at hb
    · cases hb
    · cases hb
      rfl

/-! ## Auxiliary facts for the claims -/

theorem fixedCode_length (c : Char) : (fixedCode c).length = 8 := by
  simp [fixedCode]

theorem fixedCode_binary (c : Char) : Binary (fixedCode c) := by
  intro x hx
  simp only [fixedCode, List.mem_map] at hx
  obtain ⟨i, _, rfl⟩ := hx
  split <;> simp

theorem fixedCode_injective (a c : Char) (ha : a.toNat < 256) (hc : c.toNat < 256)
    (h : IsBeginning (fixedCode a) (fixedCode c)) : a = c := by
  have hdata : (fixedCode a).data = (fixedCode c).data :=
    List.IsPrefix.eq_of_length h (by simp [fixedCode])
  simp only [fixedCode] at hdata
  rw [List.map_inj_left] at hdata
  have hnat : a.toNat = c.toNat := by
    apply Nat.eq_of_testBit_eq
    intro i
    by_cases hi : i < 8
    · have := hdata i (List.mem_range.2 hi)
      cases h1 : a.toNat.testBit i <;> cases h2 : c.toNat.testBit i <;> simp_all
    · have hp : (256 : Nat) ≤ 2 ^ i := by
        have : (2 : Nat) ^ 8 ≤ 2 ^ i := Nat.pow_le_pow_right (by omega) (by omega)
        simpa using this
      rw [Nat.testBit_lt_two_pow (by omega), Nat.testBit_lt_two_pow (by omega)]
  rw [← Char.ofNat_toNat a, ← Char.ofNat_toNat c, hnat]

theorem sum_swap (g : Char → Nat) (a c : Char) (hac : a ≠ c) (l : List Char) :
    (l.map (fun ch => g (Equiv.swap a c ch))).sum + l.count a * g a + l.count c * g c =
      (l.map g).sum + l.count a * g c + l.count c * g a := by
  induction l with
  | nil => simp
  | cons x l ih =>
    have hca : ¬ c = a := fun e => hac e.symm
    by_cases hxa : x = a
    · subst hxa
      simp only [List.map_cons, List.sum_cons, Equiv.swap_apply_left, List.count_cons_self,
        List.count_cons_of_ne hca, Nat.add_mul, Nat.one_mul]
      omega
    · by_cases hxc : x = c
      · subst hxc
        simp only [List.map_cons, List.sum_cons, Equiv.swap_apply_right, List.count_cons_self,
          List.count_cons_of_ne hac, Nat.add_mul, Nat.one_mul]
        omega
      · have h1 : ¬ a = x := fun e => hxa e.symm
        have h2 : ¬ c = x := fun e => hxc e.symm
        simp only [List.map_cons, List.sum_cons, Equiv.swap_apply_of_ne_of_ne hxa hxc,
          List.count_cons_of_ne h1, List.count_cons_of_ne h2]
        omega

theorem swap_mem (a c : Char) (l : List Char) (ha : a ∈ l) (hc : c ∈ l) (x : Char)
    (hx : x ∈ l) : Equiv.swap a c x ∈ l := by
  by_cases hxa : x = a
  · subst hxa
    simpa using hc
  · by_cases hxc : x = c
    · subst hxc
      simpa using ha
    · rw [Equiv.swap_apply_of_ne_of_ne hxa hxc]
      exact hx

theorem perm_pair {β : Type} (a b c d : β) (h : List.Perm [a, b] [c, d]) :
    (a = c ∧ b = d) ∨ (a = d ∧ b = c) := by
  have hc : c ∈ [a, b] := h.symm.subset (by simp)
  simp only [List.mem_cons, List.mem_singleton, List.not_mem_nil, or_false] at hc
  rcases hc with rfl | rfl
  · left
    exact ⟨rfl, List.perm_singleton.1 h.cons_inv |> List.singleton_inj.1⟩
  · right
    have h' : List.Perm [c, a] [c, d] := (List.Perm.swap a c []).trans h
    exact ⟨List.perm_singleton.1 h'.cons_inv |> List.singleton_inj.1, rfl⟩

/-! ## Texts with one and with two distinct characters -/

/-- A text with one distinct character, under any valid tie-break: the tree is the
single leaf of that character, whose frequency is the length of the text as an
`int`, and the code of the character is the empty string. -/
theorem one_symbol_run (sel : TieBreak) (hsel : ValidTieBreak sel) (text : String)
    (h1 : distinctChars text = 1) :
    ∃ b c, buildHuffmanTree sel text [] [] = Except.ok b ∧
      c ∈ text.toList ∧ (∀ a ∈ text.toList, a = c) ∧
      b.root = Node.mk c (wrapInt (text.length : Int)) Node.null Node.null ∧
      b.huffmanCode = [(c, "")] ∧
      b.freq = [(c, wrapInt (text.length : Int))] := by
  have hne := ne_empty_of_distinct text (by omega)
  obtain ⟨t, ht, hm, _⟩ := build_struct sel hsel text hne
  have hlen : (countFreq text []).length = 1 := by
    rw [← distinctChars_eq, h1]
  obtain ⟨⟨c, v⟩, hp⟩ := List.length_eq_one.1 hlen
  have hmem : (c, v) ∈ countFreq text [] := by
    rw [hp]
    simp
  obtain ⟨hc, hv⟩ := (countFreq_mem text c v).1 hmem
  have hall : ∀ a ∈ text.toList, a = c := by
    intro a ha
    have := ((countFreq_spec text).1 a).2 ha
    rw [hp] at this
    simpa [Table.keys] using this
  have hcount : text.toList.count c = text.length := by
    rw [← length_toList]
    exact List.count_eq_length.2 (fun a ha => (hall a ha).symm)
  rw [hcount] at hv
  rw [hp] at hm
  have htp : t = leafNode (c, v) := merges_singleton _ _ hm
  refine ⟨_, c, ht, hc, hall, ?_, ?_, ?_⟩
  · rw [htp, hv]
    rfl
  · show leafPaths t = _
    rw [htp]
    simp [leafPaths, leafRows, leafNode, Node.isNull]
  · show countFreq text [] = _
    rw [hp, hv]

/-- A text with two distinct characters, under any valid tie-break: the tree is a
root over the two leaves, the leaf extracted first on the left; the codes are `0` and
`1`, the total code length is the length of the text, and the compressed bit size is
that length as an `int`. -/
theorem two_symbols_run (sel : TieBreak) (hsel : ValidTieBreak sel) (text : String)
    (h2 : distinctChars text = 2) :
    ∃ b x y, buildHuffmanTree sel text [] [] = Except.ok b ∧
      x ≠ y ∧ x ∈ text.toList ∧ y ∈ text.toList ∧ (∀ c ∈ text.toList, c = x ∨ c = y) ∧
      wrapInt (text.toList.count x : Int) ≤ wrapInt (text.toList.count y : Int) ∧
      b.root = Node.mk (Char.ofNat 0)
          (wrapInt (wrapInt (text.toList.count x : Int) + wrapInt (text.toList.count y : Int)))
          (Node.mk x (wrapInt (text.toList.count x : Int)) Node.null Node.null)
          (Node.mk y (wrapInt (text.toList.count y : Int)) Node.null Node.null) ∧
      b.huffmanCode = [(x, "0"), (y, "1")] ∧
      textCodeSum text b.huffmanCode = text.length ∧
      getCompressedBitSize text b.huffmanCode = wrapInt (text.length : Int) := by
  obtain ⟨t, ht, hm, hperm⟩ :=
    build_struct sel hsel text (ne_empty_of_distinct text (by omega))
  obtain ⟨h1, hnd, _⟩ := countFreq_spec text
  have hlen : (countFreq text []).length = 2 := by
    rw [← distinctChars_eq, h2]
  obtain ⟨p1, p2, hft⟩ := List.length_eq_two.1 hlen
  rw [hft] at hm
  simp only [List.map_cons, List.map_nil] at hm
  obtain ⟨l, r, htl, hlr, hle⟩ := merges_pair _ _ t hm
  have key : ∃ px py : Char × Int, l = leafNode px ∧ r = leafNode py ∧
      List.Perm [p1, p2] [px, py] := by
    rcases perm_pair _ _ _ _ hlr with ⟨e1, e2⟩ | ⟨e1, e2⟩
    · exact ⟨p1, p2, e1.symm, e2.symm, List.Perm.refl _⟩
    · exact ⟨p2, p1, e2.symm, e1.symm, List.Perm.swap _ _ _⟩
  obtain ⟨⟨x, fx⟩, ⟨y, fy⟩, rfl, rfl, hpp⟩ := key
  rw [← hft] at hpp
  have hxm : (x, fx) ∈ countFreq text [] := hpp.symm.subset (by simp)
  have hym : (y, fy) ∈ countFreq text [] := hpp.symm.subset (by simp)
  obtain ⟨hx, hfx⟩ := (countFreq_mem text x fx).1 hxm
  obtain ⟨hy, hfy⟩ := (countFreq_mem text y fy).1 hym
  have hxy : x ≠ y := by
    have := (List.Perm.nodup_iff (hpp.map Prod.fst)).1 hnd
    simpa using this
  have hpaths : leafPaths t = [(x, "0"), (y, "1")] := by
    rw [htl]
    simp [leafPaths, leafRows, parentOf, leafNode, Node.isNull]
  have hall : ∀ c ∈ text.toList, c = x ∨ c = y := by
    intro c hc
    have := (hpp.map Prod.fst).subset ((h1 c).2 hc)
    simpa using this
  have hsum : textCodeSum text (leafPaths t) = text.length := by
    rw [textCodeSum, hpaths, ← length_toList]
    have : text.toList.map (fun ch => (Table.read [(x, "0"), (y, "1")] ch "").length) =
        text.toList.map (fun _ => 1) := by
      apply List.map_congr_left
      intro c hc
      have hxy' : ¬ x = y := hxy
      rcases hall c hc with rfl | rfl
      · simp [Table.read]
        rfl
      · simp [Table.read, hxy']
        rfl
    rw [this]
    simp
  refine ⟨_, x, y, ht, hxy, hx, hy, hall, ?_, ?_, hpaths, hsum, ?_⟩
  · rw [← hfx, ← hfy]
    exact hle
  · rw [htl, ← hfx, ← hfy]
    rfl
  · rw [getCompressedBitSize_eq, hsum]

theorem count_add_le (x y : Char) (hxy : x ≠ y) (l : List Char) :
    l.count x + l.count y ≤ l.length := by
  have hxy' : ¬ x = y := hxy
  have hyx' : ¬ y = x := fun e => hxy e.symm
  induction l with
  | nil => simp
  | cons a l ih =>
    simp only [List.count_cons, List.length_cons, beq_iff_eq]
    by_cases hx : a = x
    · subst hx
      simp only [hxy', ↓reduceIte]
      omega
    · by_cases hy : a = y
      · subst hy
        simp only [hyx', ↓reduceIte]
        omega
      · simp only [hx, hy, ↓reduceIte]
        omega

/-! ## Long texts -/

theorem modify_append_last (m : Table Nat) (c : Char) (v : Nat) (h : c ∉ m.keys) :
    (m ++ [(c, v)]).modify c 0 (fun v => v + 1) = m ++ [(c, v + 1)] := by
  induction m with
  | nil => simp [Table.modify]
  | cons p rest ih =>
    obtain ⟨k', v'⟩ := p
    simp only [Table.keys, List.map_cons, List.mem_cons, not_or] at h
    have h1 : ¬ k' = c := fun e => h.1 e.symm
    simp only [Table.keys] at ih
    simp [Table.modify, h1, ih h.2]

theorem countNat_replicate (m : Table Nat) (c : Char) (v n : Nat) (h : c ∉ m.keys) :
    countNat (List.replicate n c) (m ++ [(c, v)]) = m ++ [(c, v + n)] := by
  induction n generalizing v with
  | zero => simp [countNat]
  | succ n ih =>
    simp only [countNat, List.replicate_succ, List.foldl_cons] at ih ⊢
    rw [modify_append_last m c v h, ih]
    congr 3
    omega

theorem countNat_replicate_fresh (m : Table Nat) (c : Char) (n : Nat) (hn : 0 < n)
    (h : c ∉ m.keys) : countNat (List.replicate n c) m = m ++ [(c, n)] := by
  obtain ⟨k, rfl⟩ : ∃ k, n = k + 1 := ⟨n - 1, by omega⟩
  have := countNat_replicate m c 1 k h
  simp only [countNat, List.replicate_succ, List.foldl_cons] at this ⊢
  rw [Table.modify_of_not_mem _ _ _ _ h, this]
  congr 3
  omega

theorem countNat_append (l1 l2 : List Char) (m : Table Nat) :
    countNat (l1 ++ l2) m = countNat l2 (countNat l1 m) := by
  simp [countNat]

theorem countFreq_oneSymbolText (n : Nat) (hn : 0 < n) :
    countFreq (oneSymbolText n) [] = asInts [('a', n)] := by
  rw [countFreq_eq_asInts]
  have := countNat_replicate_fresh [] 'a' n hn (by simp [Table.keys])
  simpa [oneSymbolText] using congrArg asInts this

theorem countFreq_twoSymbolText (n : Nat) (hn : 0 < n) :
    countFreq (twoSymbolText n) [] = asInts [('a', n), ('b', 1)] := by
  rw [countFreq_eq_asInts]
  have h1 : countNat (List.replicate n 'a') [] = [('a', n)] :=
    countNat_replicate_fresh [] 'a' n hn (by simp [Table.keys])
  have h2 : countNat ['b'] [('a', n)] = [('a', n), ('b', 1)] := by
    simp [countNat, Table.modify]
  have : countNat (List.replicate n 'a' ++ ['b']) [] = [('a', n), ('b', 1)] := by
    rw [countNat_append, h1]
    exact h2
  simpa [twoSymbolText] using congrArg asInts this

theorem countFreq_fiveSymbolText (n : Nat) (hn : 0 < n) :
    countFreq (fiveSymbolText n) [] =
      asInts [('a', n), ('b', n), ('c', n), ('d', n), ('e', 1)] := by
  rw [countFreq_eq_asInts]
  have h1 : countNat (List.replicate n 'a') [] = [('a', n)] :=
    countNat_replicate_fresh [] 'a' n hn (by simp [Table.keys])
  have h2 : countNat (List.replicate n 'b') [('a', n)] = [('a', n), ('b', n)] :=
    countNat_replicate_fresh [('a', n)] 'b' n hn (by simp [Table.keys])
  have h3 : countNat (List.replicate n 'c') [('a', n), ('b', n)] =
      [('a', n), ('b', n), ('c', n)] :=
    countNat_replicate_fresh [('a', n), ('b', n)] 'c' n hn (by simp [Table.keys])
  have h4 : countNat (List.replicate n 'd') [('a', n), ('b', n), ('c', n)] =
      [('a', n), ('b', n), ('c', n), ('d', n)] :=
    countNat_replicate_fresh [('a', n), ('b', n), ('c', n)] 'd' n hn
      (by simp [Table.keys])
  have h5 : countNat ['e'] [('a', n), ('b', n), ('c', n), ('d', n)] =
      [('a', n), ('b', n), ('c', n), ('d', n), ('e', 1)] := by
    simp [countNat, Table.modify]
  have : countNat (List.replicate n 'a' ++ (List.replicate n 'b' ++
      (List.replicate n 'c' ++ (List.replicate n 'd' ++ ['e'])))) [] =
      [('a', n), ('b', n), ('c', n), ('d', n), ('e', 1)] := by
    rw [countNat_append, h1, countNat_append, h2, countNat_append, h3, countNat_append, h4]
    exact h5
  simpa [fiveSymbolText] using congrArg asInts this

theorem length_oneSymbolText (n : Nat) : (oneSymbolText n).length = n := by
  simp [oneSymbolText]

theorem length_twoSymbolText (n : Nat) : (twoSymbolText n).length = n + 1 := by
  simp [twoSymbolText]

theorem mem_twoSymbolText (n : Nat) (c : Char) (h : c ∈ (twoSymbolText n).toList) :
    c = 'a' ∨ c = 'b' := by
  simp only [twoSymbolText, String.toList, List.mem_append, List.mem_replicate,
    List.mem_singleton] at h
  tauto

theorem mem_fiveSymbolText (n : Nat) (hn : 0 < n) (c : Char) :
    c ∈ (fiveSymbolText n).toList ↔ c ∈ ['a', 'b', 'c', 'd', 'e'] := by
  have : n ≠ 0 := by omega
  simp only [fiveSymbolText, String.toList, List.mem_append, List.mem_replicate,
    List.mem_singleton, List.mem_cons, List.not_mem_nil, or_false, this, ne_eq,
    not_false_eq_true, true_and]

theorem sum_fiveSymbolText (g : Char → Nat) (n : Nat) :
    ((fiveSymbolText n).toList.map g).sum =
      n * g 'a' + n * g 'b' + n * g 'c' + n * g 'd' + g 'e' := by
  simp [fiveSymbolText, String.toList]
  ring

theorem distinctChars_oneSymbolText (n : Nat) (hn : 0 < n) :
    distinctChars (oneSymbolText n) = 1 := by
  rw [distinctChars_eq, countFreq_oneSymbolText n hn]
  rfl

theorem distinctChars_twoSymbolText (n : Nat) (hn : 0 < n) :
    distinctChars (twoSymbolText n) = 2 := by
  rw [distinctChars_eq, countFreq_twoSymbolText n hn]
  rfl

theorem distinctChars_fiveSymbolText (n : Nat) (hn : 0 < n) :
    distinctChars (fiveSymbolText n) = 5 := by
  rw [distinctChars_eq, countFreq_fiveSymbolText n hn]
  rfl

/-- The result of `buildHuffmanTree` from the counted frequency table. -/
theorem build_of_countFreq (sel : TieBreak) (text : String) (m : FreqTable)
    (h : countFreq text [] = m) :
    buildHuffmanTree sel text [] [] =
      match mergeLoop sel (pushLeaves m []).length (pushLeaves m []) with
      | Except.error e => Except.error e
      | Except.ok pq1 =>
        match pqTop sel pq1 with
        | none => Except.error Fault.topOfEmptyQueue
        | some root => Except.ok ⟨root, generateCodes root "" [], m⟩ := by
  subst h
  rfl

/-- The run of `buildHuffmanTree` on four characters with 2^30 occurrences each and
one character with one occurrence, under the first-minimum tie-break: the sum of the
frequencies of `b` and `c` wraps to -2^31, and that node is extracted next. -/
theorem fiveSymbolText_run :
    buildHuffmanTree firstMin (fiveSymbolText 1073741824) [] [] =
      Except.ok ⟨Node.mk (Char.ofNat 0) 1
          (Node.mk (Char.ofNat 0) (-1073741824)
            (Node.mk (Char.ofNat 0) (-2147483648)
              (Node.mk 'b' 1073741824 Node.null Node.null)
              (Node.mk 'c' 1073741824 Node.null Node.null))
            (Node.mk 'd' 1073741824 Node.null Node.null))
          (Node.mk (Char.ofNat 0) 1073741825
            (Node.mk 'e' 1 Node.null Node.null)
            (Node.mk 'a' 1073741824 Node.null Node.null)),
        [('b', "000"), ('c', "001"), ('d', "01"), ('e', "10"), ('a', "11")],
        [('a', 1073741824), ('b', 1073741824), ('c', 1073741824), ('d', 1073741824),
          ('e', 1)]⟩ := by
  have hc : countFreq (fiveSymbolText 1073741824) [] =
      [('a', 1073741824), ('b', 1073741824), ('c', 1073741824), ('d', 1073741824),
        ('e', 1)] :=
    (countFreq_fiveSymbolText 1073741824 (by decide)).trans (by decide)
  exact (build_of_countFreq firstMin _ _ hc).trans (by rfl)

/-! ## The claims -/

/-- C1: for a text with at least two distinct characters the code table filled by
`buildHuffmanTree` is prefix-free: for two different characters of the text the code
of the one is not a beginning of the code of the other, and the two codes differ. -/
theorem C1_prefix_free (sel : TieBreak) (hsel : ValidTieBreak sel) (text : String)
    (h2 : 2 ≤ distinctChars text) :
    ∃ b, buildHuffmanTree sel text [] [] = Except.ok b ∧
      ∀ a ∈ text.toList, ∀ c ∈ text.toList, a ≠ c →
        ¬ IsBeginning (b.huffmanCode.read a "") (b.huffmanCode.read c "") ∧
        b.huffmanCode.read a "" ≠ b.huffmanCode.read c "" := by
  obtain ⟨t, ht, _, hperm⟩ :=
    build_struct sel hsel text (ne_empty_of_distinct text (by omega))
  refine ⟨_, ht, ?_⟩
  intro a ha c hc hac
  obtain ⟨ra, hra, ha1, ha2, _⟩ := row_of_mem text t hperm a ha
  obtain ⟨rc, hrc, hc1, hc2, _⟩ := row_of_mem text t hperm c hc
  have hne : ra ≠ rc := by
    rintro rfl
    exact hac (ha1.symm.trans hc1)
  have hinc : Incomparable ra.2.2.data rc.2.2.data :=
    List.Pairwise.forall (fun _ _ h => incomparable_symm h) (leafRows_pairwise t) hra hrc hne
  simp only [ha2, hc2, IsBeginning]
  refine ⟨hinc.1, ?_⟩
  intro e
  apply hinc.1
  rw [e]

/-- Instance of C1 for the text `abracadabra` and the first-minimum tie-break. -/
theorem C1_witness :
    ∃ b, buildHuffmanTree firstMin "abracadabra" [] [] = Except.ok b ∧
      ∀ a ∈ "abracadabra".toList, ∀ c ∈ "abracadabra".toList, a ≠ c →
        ¬ IsBeginning (b.huffmanCode.read a "") (b.huffmanCode.read c "") ∧
        b.huffmanCode.read a "" ≠ b.huffmanCode.read c "" :=
  C1_prefix_free firstMin firstMin_valid "abracadabra" (by decide)

/-- C2 (amended): Huffman optimality for a text of at most 2^31 - 1 characters.  For
such a text with at least two distinct characters and under every tie-break of the
priority queue, the total code length under the table built by `buildHuffmanTree`
(the sum over the characters of the text of the length of their code, that is the sum
over the symbols of frequency times code length) is at most the same sum for any
assignment `code` of binary strings to the characters of the text in which no string
is a beginning of the string of another character. -/
theorem C2_huffman_optimal (sel : TieBreak) (hsel : ValidTieBreak sel) (text : String)
    (h2 : 2 ≤ distinctChars text) (hlen : text.length ≤ intMax) (code : Char → String)
    (hbin : ∀ a ∈ text.toList, Binary (code a))
    (hpf : ∀ a ∈ text.toList, ∀ b ∈ text.toList, a ≠ b → ¬ IsBeginning (code a) (code b)) :
    ∃ b, buildHuffmanTree sel text [] [] = Except.ok b ∧
      textCodeSum text b.huffmanCode ≤ (text.toList.map (fun c => (code c).length)).sum ∧
      weighted (fun c => (b.huffmanCode.read c "").length) b.freq ≤
        weighted (fun c => (code c).length) b.freq := by
  obtain ⟨t, ht, _, hopt⟩ := build_optimal sel hsel text
    (ne_empty_of_distinct text (by omega)) hlen code hbin hpf
  refine ⟨_, ht, hopt, ?_⟩
  simp only
  rw [weighted_countFreq _ text (count_le_of_length text hlen),
    weighted_countFreq _ text (count_le_of_length text hlen)]
  exact Int.ofNat_le.2 hopt

/-- Instance of C2 for the text `aab` against the code a = 0, b = 10. -/
theorem C2_witness :
    ∃ b, buildHuffmanTree firstMin "aab" [] [] = Except.ok b ∧
      textCodeSum "aab" b.huffmanCode ≤
        ("aab".toList.map (fun c => (if c = 'a' then "0" else "10" : String).length)).sum ∧
      weighted (fun c => (b.huffmanCode.read c "").length) b.freq ≤
        weighted (fun c => (if c = 'a' then "0" else "10" : String).length) b.freq :=
  C2_huffman_optimal firstMin firstMin_valid "aab" (by decide) (by decide)
    (fun c => if c = 'a' then "0" else "10") (by decide) (by decide)

/-- C2 fails for a long text: for 2^30 times each of `a`, `b`, `c`, `d` and one `e`
(2^32 + 1 characters) the frequency of the parent of `b` and `c` wraps to -2^31, and
the table built under the first-minimum tie-break has total code length
10 * 2^30 + 2, more than the 9 * 2^30 + 3 of the prefix-free binary code
e = 000, a = 001, b = 01, c = 10, d = 11. -/
theorem C2_counterexample :
    ValidTieBreak firstMin ∧ 2 ≤ distinctChars (fiveSymbolText 1073741824) ∧
    ∃ b, buildHuffmanTree firstMin (fiveSymbolText 1073741824) [] [] = Except.ok b ∧
      ∃ code : Char → String,
        (∀ a ∈ (fiveSymbolText 1073741824).toList, Binary (code a)) ∧
        (∀ a ∈ (fiveSymbolText 1073741824).toList,
          ∀ c ∈ (fiveSymbolText 1073741824).toList, a ≠ c →
            ¬ IsBeginning (code a) (code c)) ∧
        ((fiveSymbolText 1073741824).toList.map (fun c => (code c).length)).sum <
          textCodeSum (fiveSymbolText 1073741824) b.huffmanCode ∧
        weighted (fun c => (code c).length) b.freq <
          weighted (fun c => (b.huffmanCode.read c "").length) b.freq := by
  refine ⟨firstMin_valid, ?_, _, fiveSymbolText_run,
    fun c => if c = 'e' then "000" else if c = 'a' then "001" else if c = 'b' then "01"
      else if c = 'c' then "10" else "11", ?_, ?_, ?_, by decide⟩
  · rw [distinctChars_fiveSymbolText _ (by decide)]
    decide
  · intro a ha
    have key : ∀ x ∈ ['a', 'b', 'c', 'd', 'e'],
        Binary (if x = 'e' then "000" else if x = 'a' then "001" else if x = 'b' then "01"
          else if x = 'c' then "10" else "11") := by decide
    exact key a ((mem_fiveSymbolText _ (by decide) a).1 ha)
  · intro a ha c hc
    have key : ∀ x ∈ ['a', 'b', 'c', 'd', 'e'], ∀ y ∈ ['a', 'b', 'c', 'd', 'e'], x ≠ y →
        ¬ IsBeginning
          (if x = 'e' then "000" else if x = 'a' then "001" else if x = 'b' then "01"
            else if x = 'c' then "10" else "11")
          (if y = 'e' then "000" else if y = 'a' then "001" else if y = 'b' then "01"
            else if y = 'c' then "10" else "11") := by decide
    exact key a ((mem_fiveSymbolText _ (by decide) a).1 ha) c
      ((mem_fiveSymbolText _ (by decide) c).1 hc)
  · rw [textCodeSum, sum_fiveSymbolText, sum_fiveSymbolText]
    decide

/-- C3 (amended): weak monotonicity of the code lengths for a text of at most
2^31 - 1 characters.  For such a text with at least two distinct characters and two
characters `a`, `c` of the text such that `a` is strictly more frequent than `c`, the
code of `a` is not longer than the code of `c`. -/
theorem C3_monotone_lengths (sel : TieBreak) (hsel : ValidTieBreak sel) (text : String)
    (h2 : 2 ≤ distinctChars text) (hlen : text.length ≤ intMax) :
    ∃ b, buildHuffmanTree sel text [] [] = Except.ok b ∧
      ∀ a ∈ text.toList, ∀ c ∈ text.toList, b.freq.read a 0 > b.freq.read c 0 →
        (b.huffmanCode.read a "").length ≤ (b.huffmanCode.read c "").length := by
  have hne := ne_empty_of_distinct text (by omega)
  have hcount := count_le_of_length text hlen
  obtain ⟨t, ht, _, hperm⟩ := build_struct sel hsel text hne
  refine ⟨_, ht, ?_⟩
  intro a ha c hc hfreq
  simp only [(countFreq_spec text).2.2, wrapInt_natCast _ (hcount _)] at hfreq
  have hfreq' : text.toList.count c < text.toList.count a := Int.ofNat_lt.1 hfreq
  by_contra hlen'
  simp only [not_le] at hlen'
  have hac : a ≠ c := by
    rintro rfl
    exact absurd hfreq' (by omega)
  have hbin : ∀ x ∈ text.toList, Binary ((leafPaths t).read x "") := by
    intro x hx
    obtain ⟨r, hr, _, hr2, _⟩ := row_of_mem text t hperm x hx
    rw [hr2]
    exact leafRows_binary t r hr
  have hpf : ∀ x ∈ text.toList, ∀ y ∈ text.toList, x ≠ y →
      ¬ IsBeginning ((leafPaths t).read x "") ((leafPaths t).read y "") := by
    intro x hx y hy hxy
    obtain ⟨rx, hrx, hx1, hx2, _⟩ := row_of_mem text t hperm x hx
    obtain ⟨ry, hry, hy1, hy2, _⟩ := row_of_mem text t hperm y hy
    have hne : rx ≠ ry := by
      rintro rfl
      exact hxy (hx1.symm.trans hy1)
    have hinc : Incomparable rx.2.2.data ry.2.2.data :=
      List.Pairwise.forall (fun _ _ h => incomparable_symm h) (leafRows_pairwise t)
        hrx hry hne
    rw [hx2, hy2]
    exact hinc.1
  obtain ⟨t', ht', _, hopt⟩ := build_optimal sel hsel text hne hlen
    (fun x => (leafPaths t).read (Equiv.swap a c x) "")
    (fun x hx => hbin _ (swap_mem a c _ ha hc x hx))
    (fun x hx y hy hxy => hpf _ (swap_mem a c _ ha hc x hx) _ (swap_mem a c _ ha hc y hy)
      (fun e => hxy ((Equiv.swap a c).injective e)))
  have htt : t' = t := by
    rw [ht] at ht'
    cases ht'
    rfl
  subst htt
  rw [textCodeSum] at hopt
  have hs := sum_swap (fun x => ((leafPaths t').read x "").length) a c hac text.toList
  simp only at hs
  have hprod := swap_ineq (text.toList.count c) (text.toList.count a)
    ((leafPaths t').read c "").length ((leafPaths t').read a "").length
    (by omega) (by omega)
  obtain ⟨k, hk⟩ := Nat.exists_eq_add_of_lt hfreq'
  obtain ⟨m, hm⟩ := Nat.exists_eq_add_of_lt hlen'
  have hstrict : text.toList.count c * ((leafPaths t').read a "").length +
      text.toList.count a * ((leafPaths t').read c "").length <
      text.toList.count a * ((leafPaths t').read a "").length +
      text.toList.count c * ((leafPaths t').read c "").length := by
    rw [hk, hm]
    nlinarith [Nat.zero_le (k * m), Nat.zero_le k, Nat.zero_le m]
  omega

/-- Instance of C3 for the text `abracadabra` and the first-minimum tie-break. -/
theorem C3_witness :
    ∃ b, buildHuffmanTree firstMin "abracadabra" [] [] = Except.ok b ∧
      ∀ a ∈ "abracadabra".toList, ∀ c ∈ "abracadabra".toList,
        b.freq.read a 0 > b.freq.read c 0 →
        (b.huffmanCode.read a "").length ≤ (b.huffmanCode.read c "").length :=
  C3_monotone_lengths firstMin firstMin_valid "abracadabra" (by decide) (by decide)

/-- C3 fails for a long text: for 2^30 times each of `a`, `b`, `c`, `d` and one `e`
(2^32 + 1 characters), under the first-minimum tie-break, `b` has frequency 2^30 and
a code of length 3 while `e` has frequency 1 and a code of length 2. -/
theorem C3_counterexample :
    ValidTieBreak firstMin ∧ 2 ≤ distinctChars (fiveSymbolText 1073741824) ∧
    ∃ b, buildHuffmanTree firstMin (fiveSymbolText 1073741824) [] [] = Except.ok b ∧
      'b' ∈ (fiveSymbolText 1073741824).toList ∧
      'e' ∈ (fiveSymbolText 1073741824).toList ∧
      b.freq.read 'b' 0 > b.freq.read 'e' 0 ∧
      ¬ (b.huffmanCode.read 'b' "").length ≤ (b.huffmanCode.read 'e' "").length := by
  refine ⟨firstMin_valid, ?_, _, fiveSymbolText_run, ?_, ?_, by decide, by decide⟩
  · rw [distinctChars_fiveSymbolText _ (by decide)]
    decide
  · exact (mem_fiveSymbolText _ (by decide) 'b').2 (by decide)
  · exact (mem_fiveSymbolText _ (by decide) 'e').2 (by decide)

/-- C4 (amended): when no character occurs more than 2^31 - 1 times in the text, the
frequency table that `buildHuffmanTree` fills from an empty map is the occurrence
count of the text: a character is a key exactly when it occurs in the text, no key
occurs twice, the value of a key is its number of occurrences, which is positive, and
the values add up to the length of the text. -/
theorem C4_frequency_table (text : String) (hcount : ∀ c, text.toList.count c ≤ intMax) :
    (∀ (sel : TieBreak) (huffmanCode : CodeTable) (b : Built),
      buildHuffmanTree sel text huffmanCode [] = Except.ok b → b.freq = countFreq text []) ∧
    (∀ c, c ∈ (countFreq text []).keys ↔ c ∈ text.toList) ∧
    ((countFreq text []).keys).Nodup ∧
    (∀ c v, (c, v) ∈ countFreq text [] → v = (text.toList.count c : Int) ∧ 0 < v) ∧
    (∀ c, c ∈ text.toList → (c, (text.toList.count c : Int)) ∈ countFreq text []) ∧
    FreqTable.total (countFreq text []) = (text.length : Int) := by
  obtain ⟨h1, h2, _⟩ := countFreq_spec text
  refine ⟨?_, h1, h2, ?_, ?_, ?_⟩
  · intro sel huffmanCode b hb
    exact built_freq_eq text sel huffmanCode b hb
  · intro c v hcv
    obtain ⟨hc, hv⟩ := (countFreq_mem text c v).1 hcv
    rw [wrapInt_natCast _ (hcount c)] at hv
    refine ⟨hv, ?_⟩
    rw [hv]
    exact Int.ofNat_lt.2 (List.count_pos_iff.2 hc)
  · intro c hc
    exact (countFreq_mem text c _).2 ⟨hc, (wrapInt_natCast _ (hcount c)).symm⟩
  · have := weighted_countFreq (fun _ => 1) text hcount
    simpa [weighted, FreqTable.total, length_toList] using this

/-- Instance of C4 for the text `abracadabra`. -/
theorem C4_witness :
    (∀ (sel : TieBreak) (huffmanCode : CodeTable) (b : Built),
      buildHuffmanTree sel "abracadabra" huffmanCode [] = Except.ok b →
        b.freq = countFreq "abracadabra" []) ∧
    (∀ c, c ∈ (countFreq "abracadabra" []).keys ↔ c ∈ "abracadabra".toList) ∧
    ((countFreq "abracadabra" []).keys).Nodup ∧
    (∀ c v, (c, v) ∈ countFreq "abracadabra" [] →
      v = ("abracadabra".toList.count c : Int) ∧ 0 < v) ∧
    (∀ c, c ∈ "abracadabra".toList →
      (c, ("abracadabra".toList.count c : Int)) ∈ countFreq "abracadabra" []) ∧
    FreqTable.total (countFreq "abracadabra" []) = ("abracadabra".length : Int) :=
  C4_frequency_table "abracadabra"
    (fun c => (List.count_le_length _ _).trans (by decide))

/-- C4 fails for a long text: for 2^31 times the character `a` the value stored for
`a` is -2^31, which is neither its number of occurrences nor positive. -/
theorem C4_counterexample :
    ('a', (-2147483648 : Int)) ∈ countFreq (oneSymbolText 2147483648) [] ∧
    (oneSymbolText 2147483648).toList.count 'a' = 2147483648 ∧
    ¬ (∀ c v, (c, v) ∈ countFreq (oneSymbolText 2147483648) [] →
      v = ((oneSymbolText 2147483648).toList.count c : Int) ∧ 0 < v) := by
  have hmem : ('a', (-2147483648 : Int)) ∈ countFreq (oneSymbolText 2147483648) [] := by
    rw [countFreq_oneSymbolText _ (by decide)]
    decide
  refine ⟨hmem, ?_, ?_⟩
  · have h : ∀ n : Nat, (oneSymbolText n).toList.count 'a' = n := by
      intro n
      simp [oneSymbolText, String.toList]
    exact h _
  · intro h
    have := (h 'a' _ hmem).2
    exact absurd this (by decide)

/-- C5 (amended): for a text with at least two distinct characters, all of them 8-bit
values, and with 8 times its length at most 2^31 - 1 (fewer than 2^28 characters),
the compressed bit size under the table built by `buildHuffmanTree` is at most the
original bit size, which is 8 times the length of the text. -/
theorem C5_compressed_le_original (sel : TieBreak) (hsel : ValidTieBreak sel)
    (text : String) (h2 : 2 ≤ distinctChars text)
    (h8 : ∀ c ∈ text.toList, c.toNat < 256) (hlen : 8 * text.length ≤ intMax) :
    ∃ b, buildHuffmanTree sel text [] [] = Except.ok b ∧
      getCompressedBitSize text b.huffmanCode ≤ getOriginalBitSize text ∧
      getOriginalBitSize text = 8 * (text.length : Int) := by
  obtain ⟨t, ht, _, hopt⟩ := build_optimal sel hsel text
    (ne_empty_of_distinct text (by omega)) (by omega) fixedCode
    (fun a _ => fixedCode_binary a)
    (fun a ha c hc hac h => hac (fixedCode_injective a c (h8 a ha) (h8 c hc) h))
  have hsum : (text.toList.map (fun c => (fixedCode c).length)).sum = text.length * 8 := by
    simp [fixedCode_length, length_toList]
  rw [hsum] at hopt
  have horig : getOriginalBitSize text = 8 * (text.length : Int) := by
    rw [getOriginalBitSize, wrapInt_natCast _ (by omega)]
    push_cast
    ring
  refine ⟨_, ht, ?_, horig⟩
  show getCompressedBitSize text (leafPaths t) ≤ _
  have hfit : textCodeSum text (leafPaths t) ≤ intMax := by omega
  rw [horig, getCompressedBitSize_eq, wrapInt_natCast _ hfit]
  have := Int.ofNat_le.2 hopt
  push_cast at this
  omega

/-- Instance of C5 for the text `abracadabra` and the first-minimum tie-break. -/
theorem C5_witness :
    ∃ b, buildHuffmanTree firstMin "abracadabra" [] [] = Except.ok b ∧
      getCompressedBitSize "abracadabra" b.huffmanCode ≤ getOriginalBitSize "abracadabra" ∧
      getOriginalBitSize "abracadabra" = 8 * ("abracadabra".length : Int) :=
  C5_compressed_le_original firstMin firstMin_valid "abracadabra" (by decide) (by decide)
    (by decide)

/-- C5 fails for a long text: for 2^28 - 1 times `a` followed by one `b` (2^28
characters, two distinct 8-bit characters) the original bit size wraps to -2^31
while the compressed bit size is 2^28. -/
theorem C5_counterexample :
    ValidTieBreak firstMin ∧ 2 ≤ distinctChars (twoSymbolText 268435455) ∧
    (∀ c ∈ (twoSymbolText 268435455).toList, c.toNat < 256) ∧
    getOriginalBitSize (twoSymbolText 268435455) = -2147483648 ∧
    ∃ b, buildHuffmanTree firstMin (twoSymbolText 268435455) [] [] = Except.ok b ∧
      getCompressedBitSize (twoSymbolText 268435455) b.huffmanCode = 268435456 ∧
      ¬ getCompressedBitSize (twoSymbolText 268435455) b.huffmanCode ≤
        getOriginalBitSize (twoSymbolText 268435455) := by
  have hd := distinctChars_twoSymbolText 268435455 (by decide)
  have horig : getOriginalBitSize (twoSymbolText 268435455) = -2147483648 := by
    rw [getOriginalBitSize, length_twoSymbolText]
    decide
  obtain ⟨b, x, y, hb, _, _, _, _, _, _, _, _, hsize⟩ :=
    two_symbols_run firstMin firstMin_valid (twoSymbolText 268435455) hd
  have hcomp : getCompressedBitSize (twoSymbolText 268435455) b.huffmanCode = 268435456 := by
    rw [hsize, length_twoSymbolText]
    decide
  refine ⟨firstMin_valid, by omega, ?_, horig, b, hb, hcomp, ?_⟩
  · intro c hc
    rcases mem_twoSymbolText _ c hc with rfl | rfl <;> decide
  · rw [hcomp, horig]
    decide

/-- C6 (what the code does on the empty text): the frequency table is empty, no node
is queued, and `buildHuffmanTree` as called by `main` reads the top of the empty
priority queue; no empty-input error is raised before. -/
theorem C6_empty_text_reads_top_of_empty_queue (sel : TieBreak) :
    countFreq "" [] = [] ∧ pushLeaves (countFreq "" []) [] = [] ∧
    mergeLoop sel 0 [] = Except.ok [] ∧ pqTop sel [] = none ∧
    mainBuild sel "" = Except.error Fault.topOfEmptyQueue :=
  ⟨rfl, rfl, rfl, rfl, rfl⟩

/-- C7 (what the code does): for a text with one distinct character the tree is a
single leaf, the code of the character is the empty string and the compressed bit
size is 0; so it is for `aaaa`.  For a text with at least two distinct characters
every code is a non-empty string of the characters `0` and `1`. -/
theorem C7_single_symbol_empty_code (sel : TieBreak) (hsel : ValidTieBreak sel) :
    (buildHuffmanTree sel "aaaa" [] [] =
        Except.ok ⟨Node.mk 'a' 4 Node.null Node.null, [('a', "")], [('a', 4)]⟩ ∧
      Table.read [('a', "")] 'a' "" = "" ∧
      getCompressedBitSize "aaaa" [('a', "")] = 0) ∧
    (∀ text : String, distinctChars text = 1 →
      ∃ b, buildHuffmanTree sel text [] [] = Except.ok b ∧
        (∀ a ∈ text.toList, b.huffmanCode.read a "" = "") ∧
        getCompressedBitSize text b.huffmanCode = 0) ∧
    (∀ text : String, 2 ≤ distinctChars text →
      ∃ b, buildHuffmanTree sel text [] [] = Except.ok b ∧
        ∀ a ∈ text.toList, b.huffmanCode.read a "" ≠ "" ∧
          Binary (b.huffmanCode.read a "")) := by
  refine ⟨?_, ?_, ?_⟩
  · obtain ⟨b, c, hb, hc, _, hroot, hcode, hfreq⟩ :=
      one_symbol_run sel hsel "aaaa" (by decide)
    refine ⟨?_, rfl, by decide⟩
    have hca : c = 'a' := by
      have : c ∈ ['a', 'a', 'a', 'a'] := hc
      simpa using this
    subst hca
    rw [hb]
    obtain ⟨root, code, freq⟩ := b
    simp only at hroot hcode hfreq
    subst hroot hcode hfreq
    have : wrapInt (("aaaa".length : Nat) : Int) = 4 := by decide
    rw [this]
  · intro text h1
    obtain ⟨b, c, hb, _, hall, _, hcode, _⟩ := one_symbol_run sel hsel text h1
    have hread : ∀ a ∈ text.toList, b.huffmanCode.read a "" = "" := by
      intro a _
      rw [hcode]
      simp only [Table.read]
      split <;> rfl
    refine ⟨b, hb, hread, ?_⟩
    rw [getCompressedBitSize_eq, textCodeSum]
    have : text.toList.map (fun ch => (b.huffmanCode.read ch "").length) =
        text.toList.map (fun _ => 0) := by
      apply List.map_congr_left
      intro a ha
      rw [hread a ha]
      rfl
    rw [this]
    simp
    decide
  · intro text h2
    obtain ⟨t, ht, _, hperm⟩ :=
      build_struct sel hsel text (ne_empty_of_distinct text (by omega))
    refine ⟨_, ht, ?_⟩
    intro a ha
    obtain ⟨ra, hra, ha1, ha2, _⟩ := row_of_mem text t hperm a ha
    simp only [ha2]
    refine ⟨?_, leafRows_binary t ra hra⟩
    intro hempty
    have hex : ∃ c ∈ text.toList, c ≠ a := by
      by_contra hall
      simp only [not_exists, not_and, not_not] at hall
      have hd : text.toList.dedup = [a] := by
        have hperm2 : List.Perm text.toList.dedup [a] := by
          rw [List.perm_ext_iff_of_nodup (List.nodup_dedup _) (List.nodup_singleton a)]
          intro x
          rw [List.mem_dedup, List.mem_singleton]
          constructor
          · exact hall x
          · rintro rfl
            exact ha
        exact List.perm_singleton.1 hperm2
      rw [distinctChars, hd] at h2
      simp at h2
    obtain ⟨c, hc, hca⟩ := hex
    obtain ⟨rc, hrc, hc1, _, _⟩ := row_of_mem text t hperm c hc
    have hne : ra ≠ rc := by
      rintro rfl
      exact hca (hc1.symm.trans ha1)
    have hinc : Incomparable ra.2.2.data rc.2.2.data :=
      List.Pairwise.forall (fun _ _ h => incomparable_symm h) (leafRows_pairwise t)
        hra hrc hne
    apply hinc.1
    rw [hempty]
    exact List.nil_prefix

/-- Instance of C7 for the texts `aaaa`, `zzz` and `abracadabra`. -/
theorem C7_witness :
    (buildHuffmanTree firstMin "aaaa" [] [] =
        Except.ok ⟨Node.mk 'a' 4 Node.null Node.null, [('a', "")], [('a', 4)]⟩ ∧
      Table.read [('a', "")] 'a' "" = "" ∧
      getCompressedBitSize "aaaa" [('a', "")] = 0) ∧
    (∃ b, buildHuffmanTree firstMin "zzz" [] [] = Except.ok b ∧
        (∀ a ∈ "zzz".toList, b.huffmanCode.read a "" = "") ∧
        getCompressedBitSize "zzz" b.huffmanCode = 0) ∧
    (∃ b, buildHuffmanTree firstMin "abracadabra" [] [] = Except.ok b ∧
        ∀ a ∈ "abracadabra".toList, b.huffmanCode.read a "" ≠ "" ∧
          Binary (b.huffmanCode.read a "")) :=
  ⟨(C7_single_symbol_empty_code firstMin firstMin_valid).1,
   (C7_single_symbol_empty_code firstMin firstMin_valid).2.1 "zzz" (by decide),
   (C7_single_symbol_empty_code firstMin firstMin_valid).2.2 "abracadabra" (by decide)⟩

/-- C8 (amended): for a text with exactly two distinct characters and at most
2^31 - 1 characters the built tree is one internal root with two leaf children, the
less frequent character on the left; the code table gives the left character the
code `0` and the right one the code `1`, and the compressed bit size is the length of
the text.  For `aaabb` the frequency table is a:3, b:2, the compressed bit size is 5
and the original bit size is 40. -/
theorem C8_two_symbols (sel : TieBreak) (hsel : ValidTieBreak sel) :
    (∀ text : String, distinctChars text = 2 → text.length ≤ intMax →
      ∃ b x y, buildHuffmanTree sel text [] [] = Except.ok b ∧
        x ≠ y ∧ x ∈ text.toList ∧ y ∈ text.toList ∧ (∀ c ∈ text.toList, c = x ∨ c = y) ∧
        text.toList.count x ≤ text.toList.count y ∧
        b.root = Node.mk (Char.ofNat 0)
          ((text.toList.count x : Int) + (text.toList.count y : Int))
          (Node.mk x (text.toList.count x : Int) Node.null Node.null)
          (Node.mk y (text.toList.count y : Int) Node.null Node.null) ∧
        b.huffmanCode = [(x, "0"), (y, "1")] ∧
        b.huffmanCode.read x "" = "0" ∧ b.huffmanCode.read y "" = "1" ∧
        getCompressedBitSize text b.huffmanCode = (text.length : Int)) ∧
    (∃ b, buildHuffmanTree sel "aaabb" [] [] = Except.ok b ∧
      b.freq = [('a', 3), ('b', 2)] ∧
      b.huffmanCode = [('b', "0"), ('a', "1")] ∧
      getCompressedBitSize "aaabb" b.huffmanCode = 5 ∧
      getOriginalBitSize "aaabb" = 40) := by
  have general : ∀ text : String, distinctChars text = 2 → text.length ≤ intMax →
      ∃ b x y, buildHuffmanTree sel text [] [] = Except.ok b ∧
        x ≠ y ∧ x ∈ text.toList ∧ y ∈ text.toList ∧ (∀ c ∈ text.toList, c = x ∨ c = y) ∧
        text.toList.count x ≤ text.toList.count y ∧
        b.root = Node.mk (Char.ofNat 0)
          ((text.toList.count x : Int) + (text.toList.count y : Int))
          (Node.mk x (text.toList.count x : Int) Node.null Node.null)
          (Node.mk y (text.toList.count y : Int) Node.null Node.null) ∧
        b.huffmanCode = [(x, "0"), (y, "1")] ∧
        b.huffmanCode.read x "" = "0" ∧ b.huffmanCode.read y "" = "1" ∧
        getCompressedBitSize text b.huffmanCode = (text.length : Int) := by
    intro text h2 hlen
    obtain ⟨b, x, y, hb, hxy, hx, hy, hall, hle, hroot, hcode, _, hsize⟩ :=
      two_symbols_run sel hsel text h2
    have hcx := wrapInt_natCast _ (count_le_of_length text hlen x)
    have hcy := wrapInt_natCast _ (count_le_of_length text hlen y)
    have hsumxy : text.toList.count x + text.toList.count y ≤ text.length :=
      count_add_le x y hxy text.toList
    have hw : wrapInt ((text.toList.count x : Int) + (text.toList.count y : Int)) =
        (text.toList.count x : Int) + (text.toList.count y : Int) := by
      unfold intMax at hlen
      exact wrapInt_of_range _ (by omega) (by omega)
    rw [hcx, hcy] at hle hroot
    rw [hw] at hroot
    have hxy' : ¬ x = y := hxy
    refine ⟨b, x, y, hb, hxy, hx, hy, hall, Int.ofNat_le.1 hle, hroot, hcode, ?_, ?_, ?_⟩
    · rw [hcode]
      simp [Table.read]
    · rw [hcode]
      simp [Table.read, hxy']
    · rw [hsize, wrapInt_natCast _ hlen]
  refine ⟨general, ?_⟩
  obtain ⟨b, x, y, hb, hxy, hx, hy, _, hle, hroot, hcode, _, _, hsize⟩ :=
    general "aaabb" (by decide) (by decide)
  have hfreq : b.freq = [('a', 3), ('b', 2)] := by
    have := (built_freq_eq "aaabb" sel [] b hb)
    rw [this]
    decide
  refine ⟨b, hb, hfreq, ?_, ?_, by decide⟩
  · have hmem : ∀ z ∈ "aaabb".toList, z = 'a' ∨ z = 'b' := by decide
    have hx' := hmem x hx
    have hy' := hmem y hy
    rcases hx' with rfl | rfl <;> rcases hy' with rfl | rfl
    · exact absurd rfl hxy
    · exact absurd hle (by decide)
    · exact hcode
    · exact absurd rfl hxy
  · rw [hsize]
    decide

/-- Instance of C8 for the text `aaabb` and the first-minimum tie-break. -/
theorem C8_witness :
    ∃ b x y, buildHuffmanTree firstMin "aaabb" [] [] = Except.ok b ∧
      x ≠ y ∧ x ∈ "aaabb".toList ∧ y ∈ "aaabb".toList ∧
      (∀ c ∈ "aaabb".toList, c = x ∨ c = y) ∧
      "aaabb".toList.count x ≤ "aaabb".toList.count y ∧
      b.root = Node.mk (Char.ofNat 0)
        (("aaabb".toList.count x : Int) + ("aaabb".toList.count y : Int))
        (Node.mk x ("aaabb".toList.count x : Int) Node.null Node.null)
        (Node.mk y ("aaabb".toList.count y : Int) Node.null Node.null) ∧
      b.huffmanCode = [(x, "0"), (y, "1")] ∧
      b.huffmanCode.read x "" = "0" ∧ b.huffmanCode.read y "" = "1" ∧
      getCompressedBitSize "aaabb" b.huffmanCode = ("aaabb".length : Int) :=
  (C8_two_symbols firstMin firstMin_valid).1 "aaabb" (by decide) (by decide)

/-- C8 fails for a long text: for 2^31 - 1 times `a` followed by one `b` (2^31
characters, two distinct characters) the frequency of the root and the compressed
bit size wrap to -2^31, which is not the length of the text. -/
theorem C8_counterexample :
    ValidTieBreak firstMin ∧ distinctChars (twoSymbolText 2147483647) = 2 ∧
    (twoSymbolText 2147483647).length = 2147483648 ∧
    ∃ b, buildHuffmanTree firstMin (twoSymbolText 2147483647) [] [] = Except.ok b ∧
      b.root.freq = -2147483648 ∧
      getCompressedBitSize (twoSymbolText 2147483647) b.huffmanCode = -2147483648 ∧
      getCompressedBitSize (twoSymbolText 2147483647) b.huffmanCode ≠
        ((twoSymbolText 2147483647).length : Int) := by
  have hd := distinctChars_twoSymbolText 2147483647 (by decide)
  have hl : (twoSymbolText 2147483647).length = 2147483648 := length_twoSymbolText _
  have hc : countFreq (twoSymbolText 2147483647) [] = [('a', 2147483647), ('b', 1)] :=
    (countFreq_twoSymbolText 2147483647 (by decide)).trans (by decide)
  have hrun : buildHuffmanTree firstMin (twoSymbolText 2147483647) [] [] =
      Except.ok ⟨Node.mk (Char.ofNat 0) (-2147483648)
          (Node.mk 'b' 1 Node.null Node.null)
          (Node.mk 'a' 2147483647 Node.null Node.null),
        [('b', "0"), ('a', "1")], [('a', 2147483647), ('b', 1)]⟩ :=
    (build_of_countFreq firstMin _ _ hc).trans (by rfl)
  obtain ⟨b, x, y, hb, _, _, _, _, _, _, _, _, hsize⟩ :=
    two_symbols_run firstMin firstMin_valid (twoSymbolText 2147483647) hd
  rw [hrun] at hb
  cases hb
  have hcomp : getCompressedBitSize (twoSymbolText 2147483647)
      [('b', "0"), ('a', "1")] = -2147483648 := by
    rw [hsize, hl]
    decide
  refine ⟨firstMin_valid, hd, hl, _, hrun, rfl, hcomp, ?_⟩
  rw [hcomp, hl]
  decide

/-- C9: code generation records root-to-leaf paths.  On a tree whose nodes have no
child or two children and whose leaves carry pairwise different symbols,
`generateCodes` started with the empty code on the empty table yields a table whose
keys are the leaf symbols and whose value for a leaf is the path from the root to
that leaf, a left edge written `0` and a right edge written `1`; the length of the
code is the depth of the leaf.  For a non-empty text the code table built by
`buildHuffmanTree` has the same keys as the frequency table. -/
theorem C9_codes_are_paths :
    (∀ root : Node, Full root → ((leaves root).keys).Nodup →
      (generateCodes root "" []).keys = (leaves root).keys ∧
      (∀ r ∈ leafRows root, (generateCodes root "" []).read r.1 "" = r.2.2) ∧
      (∀ c d, (c, d) ∈ leafDepths root →
        ((generateCodes root "" []).read c "").length = d)) ∧
    (∀ (sel : TieBreak) (text : String), ValidTieBreak sel → text ≠ "" →
      ∃ b, buildHuffmanTree sel text [] [] = Except.ok b ∧
        ∀ c, c ∈ b.huffmanCode.keys ↔ c ∈ b.freq.keys) := by
  constructor
  · intro root _ hnodup
    have hk : ((leafPaths root).keys).Nodup := by
      rw [leafPaths_keys]
      exact hnodup
    rw [generateCodes_eq_leafPaths root hk]
    refine ⟨leafPaths_keys root, ?_, ?_⟩
    · intro r hr
      exact Table.read_of_mem _ hk _ _ "" (List.mem_map.2 ⟨r, hr, rfl⟩)
    · intro c d hcd
      rw [leafDepths_eq] at hcd
      obtain ⟨r, hr, hrc⟩ := List.mem_map.1 hcd
      simp only [Prod.mk.injEq] at hrc
      rw [← hrc.1, ← hrc.2,
        Table.read_of_mem _ hk _ _ "" (List.mem_map.2 ⟨r, hr, rfl⟩)]
  · intro sel text hsel hne
    obtain ⟨t, ht, _, hperm⟩ := build_struct sel hsel text hne
    refine ⟨_, ht, ?_⟩
    intro c
    simp only
    rw [leafPaths_keys]
    exact (hperm.map Prod.fst).mem_iff

/-- Instance of C9 for the tree of `aaabb` and for the text `aaabb`. -/
theorem C9_witness :
    ((generateCodes (Node.mk (Char.ofNat 0) 5 (Node.mk 'b' 2 Node.null Node.null)
        (Node.mk 'a' 3 Node.null Node.null)) "" []).keys =
      (leaves (Node.mk (Char.ofNat 0) 5 (Node.mk 'b' 2 Node.null Node.null)
        (Node.mk 'a' 3 Node.null Node.null))).keys ∧
     (∀ r ∈ leafRows (Node.mk (Char.ofNat 0) 5 (Node.mk 'b' 2 Node.null Node.null)
        (Node.mk 'a' 3 Node.null Node.null)),
       (generateCodes (Node.mk (Char.ofNat 0) 5 (Node.mk 'b' 2 Node.null Node.null)
        (Node.mk 'a' 3 Node.null Node.null)) "" []).read r.1 "" = r.2.2) ∧
     (∀ c d, (c, d) ∈ leafDepths (Node.mk (Char.ofNat 0) 5
        (Node.mk 'b' 2 Node.null Node.null) (Node.mk 'a' 3 Node.null Node.null)) →
       ((generateCodes (Node.mk (Char.ofNat 0) 5 (Node.mk 'b' 2 Node.null Node.null)
        (Node.mk 'a' 3 Node.null Node.null)) "" []).read c "").length = d)) ∧
    (∃ b, buildHuffmanTree firstMin "aaabb" [] [] = Except.ok b ∧
      ∀ c, c ∈ b.huffmanCode.keys ↔ c ∈ b.freq.keys) :=
  ⟨C9_codes_are_paths.1 _ (by decide) (by decide),
   C9_codes_are_paths.2 firstMin "aaabb" firstMin_valid (by decide)⟩

/-- C10 (amended): for a non-empty text of at most 2^31 - 1 characters
`buildHuffmanTree` returns (the merge loop ends); in the returned tree every node is
a leaf without children or an internal node with two children whose frequency is the
sum of the frequencies of its children and whose left child is not more frequent
than its right child; no two leaves carry the same symbol, the leaves are the
characters of the text, each with its number of occurrences; and the frequency of
the root is the length of the text. -/
theorem C10_tree_shape (sel : TieBreak) (hsel : ValidTieBreak sel) (text : String)
    (hne : text ≠ "") (hlen : text.length ≤ intMax) :
    ∃ b, buildHuffmanTree sel text [] [] = Except.ok b ∧
      Shape b.root ∧
      ((leaves b.root).keys).Nodup ∧
      (∀ c f, (c, f) ∈ leaves b.root ↔
        c ∈ text.toList ∧ f = (text.toList.count c : Int)) ∧
      b.root.freq = (text.length : Int) := by
  obtain ⟨t, ht, _, hperm, hsound, _, hfreq⟩ := build_sound sel hsel text hne hlen
  refine ⟨_, ht, hsound.1, ?_, ?_, hfreq⟩
  · exact (List.Perm.nodup_iff (hperm.map Prod.fst)).2 (countFreq_spec text).2.1
  · intro c f
    rw [← wrapInt_natCast _ (count_le_of_length text hlen c), ← countFreq_mem]
    exact hperm.mem_iff

/-- Instance of C10 for the text `abracadabra` and the first-minimum tie-break. -/
theorem C10_witness :
    ∃ b, buildHuffmanTree firstMin "abracadabra" [] [] = Except.ok b ∧
      Shape b.root ∧
      ((leaves b.root).keys).Nodup ∧
      (∀ c f, (c, f) ∈ leaves b.root ↔
        c ∈ "abracadabra".toList ∧ f = ("abracadabra".toList.count c : Int)) ∧
      b.root.freq = ("abracadabra".length : Int) :=
  C10_tree_shape firstMin firstMin_valid "abracadabra" (by decide) (by decide)

/-- C10 fails for a long text: for 2^31 times the character `a` the tree is the
single leaf of `a` with frequency -2^31, which is neither the number of occurrences
of `a` nor the length of the text. -/
theorem C10_counterexample :
    ValidTieBreak firstMin ∧ oneSymbolText 2147483648 ≠ "" ∧
    (oneSymbolText 2147483648).length = 2147483648 ∧
    ∃ b, buildHuffmanTree firstMin (oneSymbolText 2147483648) [] [] = Except.ok b ∧
      b.root = Node.mk 'a' (-2147483648) Node.null Node.null ∧
      b.root.freq ≠ ((oneSymbolText 2147483648).length : Int) := by
  have hd := distinctChars_oneSymbolText 2147483648 (by decide)
  have hl : (oneSymbolText 2147483648).length = 2147483648 := length_oneSymbolText _
  have hc : countFreq (oneSymbolText 2147483648) [] = [('a', -2147483648)] :=
    (countFreq_oneSymbolText 2147483648 (by decide)).trans (by decide)
  have hrun : buildHuffmanTree firstMin (oneSymbolText 2147483648) [] [] =
      Except.ok ⟨Node.mk 'a' (-2147483648) Node.null Node.null, [('a', "")],
        [('a', -2147483648)]⟩ :=
    (build_of_countFreq firstMin _ _ hc).trans (by rfl)
  refine ⟨firstMin_valid, ne_empty_of_distinct _ (by omega), hl, _, hrun, rfl, ?_⟩
  rw [hl]
  decide

end Huffman
